import Mathlib

/-!
# Verification of the RAG document pipeline

Shallow embedding of the retrieval-augmented-generation subsystem of the
repository (`app/services/chunker.py`, `app/services/document_processor.py`,
`app/services/knowledge_base.py`).

Modelling conventions:
* Python strings are `List Char` (one element per code point, matching
  Python's `len`/indexing semantics).
* Token streams are `List Nat`; the tiktoken encoder/decoder pair is an
  external library and is taken as a parameter.
* Python floats are idealised as `ℚ`.
* The ChromaDB collection is an association list keyed by chunk id.
-/

/-! ## Python string primitives -/

/-- The whitespace test used by Python's `str.strip`/`str.rstrip`
(ASCII whitespace: space, tab, newline, carriage return, vertical tab,
form feed). -/
def pyIsSpace (c : Char) : Bool :=
  c = ' ' || c = '\t' || c = '\n' || c = '\r' || c = Char.ofNat 11 || c = Char.ofNat 12

/-- Python `str.lstrip()`. -/
def pyLStrip (s : List Char) : List Char := s.dropWhile pyIsSpace

/-- Python `str.rstrip()`. -/
def pyRStrip (s : List Char) : List Char := (s.reverse.dropWhile pyIsSpace).reverse

/-- Python `str.strip()`. -/
def pyStrip (s : List Char) : List Char := pyRStrip (pyLStrip s)

/-- Python `str.split(sep)` for a one-character separator: always returns at
least one (possibly empty) part. -/
def splitOnChar (sep : Char) : List Char → List (List Char)
  | [] => [[]]
  | c :: t =>
    match splitOnChar sep t with
    | [] => [[]]
    | h :: r => if c = sep then [] :: h :: r else (c :: h) :: r

/-- Python `sep.join(parts)` for a one-character separator. -/
def joinChar (sep : Char) : List (List Char) → List Char
  | [] => []
  | [l] => l
  | l :: ls => l ++ sep :: joinChar sep ls

/-- Does `p` occur verbatim at the head of `s`? -/
def headMatch : List Char → List Char → Bool
  | [], _ => true
  | _ :: _, [] => false
  | p :: ps, c :: cs => p = c && headMatch ps cs

/-- Python's contiguous substring test `p in s`. -/
def isSubL (p : List Char) : List Char → Bool
  | [] => headMatch p []
  | c :: t => headMatch p (c :: t) || isSubL p t

/-! ## Chunker (`app/services/chunker.py`) -/

/-- The `(start, end)` windows emitted by the `while start < len(tokens)`
loop in `chunk_text`: `end = min(start + chunk_size, n)`, the window is
appended, the loop breaks once `end` reaches `n`, else `start += step`.
The Python loop only terminates when `step ≥ 1`, so the positivity of
`step` is part of the loop guard here (for `step = 0` the Python code
diverges; no claim touches that case). -/
def chunkWinGo (n cs step : Nat) (start : Nat) : List (Nat × Nat) :=
  if _h : 0 < step ∧ start < n then
    (start, min (start + cs) n) ::
      (if n ≤ min (start + cs) n then [] else chunkWinGo n cs step (start + step))
  else []
termination_by n - start
decreasing_by omega

/-- All windows of the chunking loop for a token stream of length `n`,
chunk size `cs` and overlap `ov` (`step = cs - ov`, start at 0). -/
def chunkWindows (n cs ov : Nat) : List (Nat × Nat) := chunkWinGo n cs (cs - ov) 0

/-- Python list slice `l[a:b]` for `0 ≤ a ≤ b`. -/
def pySliceN (l : List α) (a b : Nat) : List α := (l.drop a).take (b - a)

/-- The `chunker.chunk_text`, parameterised by the external tiktoken
encoder/decoder pair (`_encoder.encode` / `_encoder.decode`). -/
def chunk_text (encode : List Char → List Nat) (decode : List Nat → List Char)
    (text : List Char) (chunk_size chunk_overlap : Nat) : List (List Char) :=
  if text = [] || pyStrip text = [] then []
  else
    let tokens := encode text
    if tokens.length ≤ chunk_size then [text]
    else
      (chunkWindows tokens.length chunk_size chunk_overlap).map
        (fun w => decode (pySliceN tokens w.1 w.2))

/-- The `chunker.count_tokens`. -/
def count_tokens (encode : List Char → List Nat) (text : List Char) : Nat :=
  (encode text).length

/-! ## Decimal rendering of page numbers (Python `str(int)`) -/

/-- The decimal digit character for `n < 10`. -/
def digitChar : Nat → Char
  | 0 => '0' | 1 => '1' | 2 => '2' | 3 => '3' | 4 => '4'
  | 5 => '5' | 6 => '6' | 7 => '7' | 8 => '8' | 9 => '9'
  | _ => '?'

/-- Numeric value of a decimal digit character. -/
def digitVal (c : Char) : Nat :=
  match c with
  | '0' => 0 | '1' => 1 | '2' => 2 | '3' => 3 | '4' => 4
  | '5' => 5 | '6' => 6 | '7' => 7 | '8' => 8 | '9' => 9
  | _ => 0

/-- Value of a decimal digit string (as `int(...)` on a digit run). -/
def digitsVal (l : List Char) : Nat := l.foldl (fun a c => a * 10 + digitVal c) 0

/-- Fuel-indexed decimal rendering; `natRepr` supplies sufficient fuel. -/
def natReprGo : Nat → Nat → List Char
  | 0, _ => []
  | f + 1, n => if n < 10 then [digitChar n] else natReprGo f (n / 10) ++ [digitChar (n % 10)]

/-- Python `str(n)` for a natural number. -/
def natRepr (n : Nat) : List Char := natReprGo (n + 1) n

/-! ## Page markers (`chunker.extract_pages_from_chunk`) -/

/-- The literal head of a `[PAGE:N]` marker. -/
def pageTag : List Char := "[PAGE:".toList

/-- Fuel-indexed scan implementing `re.findall(r"\[PAGE:(\d+)\]", s)`:
at each position try to match the tag, a non-empty digit run and `]`;
on success record the value and continue after the match, otherwise
advance one character.  (`\d` is modelled as the ASCII digits; the
markers are generated by the extractor with ASCII digits only.) -/
def findPMGo : Nat → List Char → List Nat
  | 0, _ => []
  | _ + 1, [] => []
  | f + 1, c :: t =>
    if headMatch pageTag (c :: t) then
      let rest := (c :: t).drop 6
      let ds := rest.takeWhile Char.isDigit
      match rest.dropWhile Char.isDigit with
      | ']' :: r2 => if ds = [] then findPMGo f t else digitsVal ds :: findPMGo f r2
      | _ => findPMGo f t
    else findPMGo f t

/-- All `[PAGE:N]` marker values of a chunk, in order. -/
def findPageMarkers (s : List Char) : List Nat := findPMGo s.length s

/-- The `chunker.extract_pages_from_chunk`: `""` when there is no marker,
`"N"` for a single page, `"N-M"` for a first-to-last span. -/
def extract_pages_from_chunk (chunk : List Char) : List Char :=
  match findPageMarkers chunk with
  | [] => []
  | p :: rest =>
    if rest = [] || p = (p :: rest).getLastD 0 then natRepr p
    else natRepr p ++ '-' :: natRepr ((p :: rest).getLastD 0)

/-- The `pages.split("-")[-1]` — the last dash-separated component. -/
def lastDashPart (s : List Char) : List Char := (splitOnChar '-' s).getLastD []

/-- The stateful page-propagation loop of `KnowledgeBaseService.add_document`
(lines 122–137): each chunk's `pages` metadata is its own marker-derived
value when non-empty, otherwise the inherited `last_known_page`; the state
is updated to `pages.split("-")[-1]` whenever markers are present. -/
def resolvePagesGo (last : List Char) : List (List Char) → List (List Char)
  | [] => []
  | c :: cs =>
    let p := extract_pages_from_chunk c
    if p ≠ [] then p :: resolvePagesGo (lastDashPart p) cs
    else last :: resolvePagesGo last cs

/-- The `pages` metadata values stored for a chunk list, in order
(`last_known_page` starts out empty). -/
def resolvePages (chunks : List (List Char)) : List (List Char) :=
  resolvePagesGo [] chunks

/-! ## Text cleaning (`document_processor.clean_text`) -/

/-- Membership in the removal class `[\x00-\x08\x0b\x0c\x0e-\x1f\x7f]`
(all C0 control characters except tab `\x09`, newline `\x0a` and carriage
return `\x0d`, plus DEL). -/
def isRemovedCtrl (c : Char) : Bool :=
  c.toNat ≤ 8 || c.toNat = 11 || c.toNat = 12
    || (14 ≤ c.toNat && c.toNat ≤ 31) || c.toNat = 127

/-- Emit a pending run of `n` newlines, collapsing runs of three or more
to exactly two (`re.sub(r"\n{3,}", "\n\n", ...)`). -/
def collapseEmit (n : Nat) : List Char := List.replicate (if 3 ≤ n then 2 else n) '\n'

/-- Scan for `collapseNL`, carrying the length of the pending newline run. -/
def collapseNLGo : Nat → List Char → List Char
  | n, [] => collapseEmit n
  | n, c :: t =>
    if c = '\n' then collapseNLGo (n + 1) t else collapseEmit n ++ c :: collapseNLGo 0 t

/-- The `re.sub(r"\n{3,}", "\n\n", s)`. -/
def collapseNL (s : List Char) : List Char := collapseNLGo 0 s

/-- The `document_processor.clean_text`: remove the control-character class,
collapse newline runs, strip trailing whitespace per line, and strip the
whole result. -/
def clean_text (s : List Char) : List Char :=
  let s1 := s.filter (fun c => !isRemovedCtrl c)
  let s2 := collapseNL s1
  pyStrip (joinChar '\n' ((splitOnChar '\n' s2).map pyRStrip))

/-! ## Low-quality-chunk filter (`KnowledgeBaseService._is_low_quality_chunk`) -/

/-- One line of a table-of-contents fragment: contains `". . ."`, `"...."`
or a horizontal-ellipsis character. -/
def hasDotLeader (line : List Char) : Bool :=
  isSubL ". . .".toList line || isSubL "....".toList line || isSubL "…".toList line

/-- The `dot_lines`: the number of lines of the chunk carrying a dot-leader. -/
def dotLineCount (text : List Char) : Nat :=
  ((splitOnChar '\n' text).filter hasDotLeader).length

/-- The `total_lines = max(len(text.split("\n")), 1)`. -/
def totalLineCount (text : List Char) : Nat :=
  max (splitOnChar '\n' text).length 1

/-- The `KnowledgeBaseService._is_low_quality_chunk`: drop chunks whose stripped
text is under 100 characters, and chunks where more than 3 lines carry a
dot-leader run and those lines are more than 20% of all lines (the float
ratio test `dot_lines / total_lines > 0.2` is idealised over `ℚ`). -/
def is_low_quality_chunk (text : List Char) : Bool :=
  if (pyStrip text).length < 100 then true
  else if 3 < dotLineCount text ∧
      (dotLineCount text : ℚ) / (totalLineCount text : ℚ) > 1 / 5 then true
  else false

/-! ## PDF extraction fallback chain (`document_processor._extract_pdf`) -/

/-- Lines 64–91 of `_extract_pdf`: the pypdf/pdfplumber/pdfminer part of
the chain, reached when PyMuPDF raised or produced empty/garbled text.
The pdfplumber and pdfminer calls sit inside `try/except` blocks, the
pypdf call does not, so its exception propagates. -/
def extract_pdf_tail (garbled : List Char → Bool)
    (pypdf plumber miner : Except Unit (List Char)) : Except Unit (List Char) :=
  match pypdf with
  | .error e => .error e
  | .ok t =>
    if garbled t = false then .ok t
    else
      let viaPlumber : Option (List Char) :=
        match plumber with
        | .ok t3 => if t3 ≠ [] ∧ garbled t3 = false then some t3 else none
        | .error _ => none
      match viaPlumber with
      | some t3 => .ok t3
      | none =>
        match miner with
        | .ok t4 => if t4 ≠ [] ∧ garbled t4 = false then .ok t4 else .ok t
        | .error _ => .ok t

/-- The `document_processor._extract_pdf`, with the four backend invocations
(`_extract_pdf_pymupdf`, `_extract_pdf_pypdf`, `_extract_pdf_pdfplumber`,
`_extract_pdf_pdfminer`) and the garbled-text detector `_is_garbled` taken
as parameters; `.error` models a raised exception.  A non-empty,
non-garbled PyMuPDF result wins (its exceptions are caught); otherwise the
rest of the chain runs. -/
def extract_pdf (garbled : List Char → Bool)
    (pymupdf pypdf plumber miner : Except Unit (List Char)) :
    Except Unit (List Char) :=
  match pymupdf with
  | .ok t1 =>
    if t1 ≠ [] ∧ garbled t1 = false then .ok t1
    else extract_pdf_tail garbled pypdf plumber miner
  | .error _ => extract_pdf_tail garbled pypdf plumber miner

/-! ## Rounding (`round(score, 4)`) -/

/-- Round-half-to-even on `ℚ`, the decimal behaviour of Python's `round`. -/
def roundHalfEven (x : ℚ) : ℤ :=
  let f := ⌊x⌋
  let r := x - f
  if r < 1 / 2 then f
  else if 1 / 2 < r then f + 1
  else if Even f then f else f + 1

/-- Python `round(x, 4)` idealised over `ℚ`. -/
def pyRound4 (x : ℚ) : ℚ := (roundHalfEven (x * 10000) : ℚ) / 10000

/-! ## Search (`KnowledgeBaseService.search`) -/

/-- Chunk metadata as stored in ChromaDB. -/
structure ChunkMeta where
  document_id : List Char
  filename : List Char
  chunk_index : Nat
  total_chunks : Nat
  added_at : Int
  pages : List Char
deriving DecidableEq

/-- One row of a ChromaDB query result (zipped `documents`/`metadatas`/
`distances`/`ids`). -/
structure QueryRow where
  id : List Char
  doc : List Char
  meta : ChunkMeta
  dist : ℚ
deriving DecidableEq

/-- A search hit as returned by `search` (the candidate dict's values). -/
structure Hit where
  text : List Char
  score : ℚ
  filename : List Char
  chunk_index : Nat
  document_id : List Char
  pages : List Char
deriving DecidableEq

/-- Association-list lookup (Python dict access by key). -/
def lookupA (l : List (List Char × Hit)) (k : List Char) : Option Hit :=
  match l with
  | [] => none
  | (k', v) :: t => if k' = k then some v else lookupA t k

/-- Replace the value stored under key `k` in place (Python dict update
keeps the key's insertion position). -/
def replaceA (l : List (List Char × Hit)) (k : List Char) (v : Hit) :
    List (List Char × Hit) :=
  l.map fun p => if p.1 = k then (k, v) else p

/-- The candidate record built from one query row (lines 221–228). -/
def mkCand (row : QueryRow) : Hit :=
  { text := row.doc
    score := pyRound4 (1 - row.dist / 2)
    filename := row.meta.filename
    chunk_index := row.meta.chunk_index
    document_id := row.meta.document_id
    pages := row.meta.pages }

/-- The body of the candidate-collection loop (lines 207–228): skip rows
under the relevance threshold or failing the quality filter, then insert,
keeping the best score per chunk id. -/
def considerRow (minRel : ℚ) (cands : List (List Char × Hit)) (row : QueryRow) :
    List (List Char × Hit) :=
  let score := 1 - row.dist / 2
  if score < minRel then cands
  else if is_low_quality_chunk row.doc then cands
  else
    match lookupA cands row.id with
    | none => cands ++ [(row.id, mkCand row)]
    | some old => if old.score < score then replaceA cands row.id (mkCand row) else cands

/-- Candidate collection over all query embeddings' result sets. -/
def collectCands (minRel : ℚ) (resultsets : List (List QueryRow)) :
    List (List Char × Hit) :=
  resultsets.foldl (fun acc rs => rs.foldl (considerRow minRel) acc) []

/-- ASCII and Cyrillic lower-casing (the part of Python's `str.lower()`
exercised by the brand table). -/
def pyLowerChar (c : Char) : Char :=
  if 'A' ≤ c ∧ c ≤ 'Z' then Char.ofNat (c.toNat + 32)
  else if 0x410 ≤ c.toNat ∧ c.toNat ≤ 0x42F then Char.ofNat (c.toNat + 32)
  else if c.toNat = 0x401 then Char.ofNat 0x451
  else c

/-- Python `str.lower()` (restricted to the alphabets that occur here). -/
def pyLower (s : List Char) : List Char := s.map pyLowerChar

/-- The brand/document scoping step (lines 230–240), with the keyword list
`_extract_car_keywords(query.lower())` taken as a parameter: keep only the
candidates whose lower-cased filename contains one of the keywords, but
only when the keyword list is non-empty and at least one candidate matches. -/
def carScope (kws : List (List Char)) (cands : List (List Char × Hit)) :
    List (List Char × Hit) :=
  if kws = [] then cands
  else
    let matched := cands.filter fun p => kws.any fun kw => isSubL kw (pyLower p.2.filename)
    if matched = [] then cands else matched

/-- Insertion step of a stable descending sort by score
(`sorted(..., key=lambda x: x["score"], reverse=True)`). -/
def insertHit (h : Hit) : List Hit → List Hit
  | [] => [h]
  | x :: t => if x.score < h.score then h :: x :: t else x :: insertHit h t

/-- Stable descending sort by score. -/
def sortHits : List Hit → List Hit
  | [] => []
  | h :: t => insertHit h (sortHits t)

/-- Python slice `l[:k]` for an `int` bound (negative bounds count from
the end). -/
def pyTakeInt (k : Int) (l : List α) : List α :=
  if 0 ≤ k then l.take k.toNat else l.take ((l.length : Int) + k).toNat

/-- Python's `x or default` coalescing for an optional `int` argument:
`None` and `0` are falsy. -/
def pyOrInt (x : Option Int) (dflt : Int) : Int :=
  match x with
  | none => dflt
  | some k => if k = 0 then dflt else k

/-- Python's `x or default` coalescing for an optional `float` argument:
`None` and `0.0` are falsy. -/
def pyOrRat (x : Option ℚ) (dflt : ℚ) : ℚ :=
  match x with
  | none => dflt
  | some q => if q = 0 then dflt else q

/-- The `settings.RAG_TOP_K` (config.py default). -/
def RAG_TOP_K : Int := 5

/-- The `settings.RAG_MIN_RELEVANCE` (config.py default, `0.3`). -/
def RAG_MIN_RELEVANCE : ℚ := 3 / 10

/-- The `KnowledgeBaseService.search` from the point where the ChromaDB query
results are in hand: the embedding round-trips and the store query are
external, so the per-query result sets are a parameter, as is the keyword
list of the brand-scoping step.  Coalesce `top_k`/`min_relevance` with the
configured defaults, collect candidates keeping the best score per chunk
id, scope by brand keywords, sort by score descending and truncate. -/
def searchModel (resultsets : List (List QueryRow))
    (top_k : Option Int) (min_relevance : Option ℚ)
    (kws : List (List Char)) : List Hit :=
  let topK := pyOrInt top_k RAG_TOP_K
  let minRel := pyOrRat min_relevance RAG_MIN_RELEVANCE
  let cands := collectCands minRel resultsets
  pyTakeInt topK (sortHits ((carScope kws cands).map Prod.snd))

/-! ## Ingestion and the store (`KnowledgeBaseService.add_document`) -/

/-- One stored chunk record (document text plus metadata; the embedding
vector is irrelevant to every claim and omitted). -/
structure Entry where
  doc : List Char
  meta : ChunkMeta
deriving DecidableEq

/-- The ChromaDB collection, keyed by chunk id. -/
abbrev Store := List (List Char × Entry)

/-- Upsert of a single record: replace in place when the id exists,
append otherwise. -/
def upsertOne (s : Store) (id : List Char) (e : Entry) : Store :=
  if s.any (fun p => p.1 = id) then
    s.map fun p => if p.1 = id then (id, e) else p
  else s ++ [(id, e)]

/-- The `collection.upsert` over a batch of records. -/
def upsertBatch (s : Store) (l : List (List Char × Entry)) : Store :=
  l.foldl (fun acc p => upsertOne acc p.1 p.2) s

/-- The result dict of `add_document`. -/
structure IngestResult where
  document_id : List Char
  filename : List Char
  chunk_count : Nat
  token_count : Nat
deriving DecidableEq

/-- The `(chunk_id, record)` batch built by `add_document` for a chunk
list: ids are `{doc_id}_{i}`, metadata carries the document id, filename,
index, chunk total, timestamp and the propagated page labels. -/
def ingestRecords (doc_id filename : List Char) (now : Int)
    (chunks : List (List Char)) : List (List Char × Entry) :=
  (List.range chunks.length).map fun i =>
    (doc_id ++ '_' :: natRepr i,
     ({ doc := chunks.getD i []
        meta :=
          { document_id := doc_id
            filename := filename
            chunk_index := i
            total_chunks := chunks.length
            added_at := now
            pages := (resolvePages chunks).getD i [] } } : Entry))

/-- The `KnowledgeBaseService.add_document`, with the externals as parameters:
`rawText` is the output of `extract_text` (file parsing; deterministic in
the file content), `hashHex` the hex digest of `hashlib.sha256`,
`encode`/`decode` the tiktoken codec, `now` the value of
`int(time.time())`, `cs`/`ov` the configured chunk size and overlap.
Embedding calls cannot fail in this model (an embedding failure aborts the
whole ingestion and stores nothing).  Returns the updated store and the
result dict, or the `ValueError` message. -/
def add_document (hashHex : List Char → List Char)
    (encode : List Char → List Nat) (decode : List Nat → List Char)
    (cs ov : Nat) (store : Store) (rawText : List Char)
    (filename : List Char) (now : Int) :
    Except (List Char) (Store × IngestResult) :=
  let text := clean_text rawText
  if text = [] then .error "No text could be extracted from the file".toList
  else
    let doc_id := (hashHex text).take 16
    let chunks := chunk_text encode decode text cs ov
    if chunks = [] then .error "Text produced zero chunks".toList
    else
      .ok (upsertBatch store (ingestRecords doc_id filename now chunks),
        { document_id := doc_id, filename := filename,
          chunk_count := chunks.length, token_count := (encode text).length })

/-- Number of chunks stored for a given document id. -/
def docChunkCount (s : Store) (d : List Char) : Nat :=
  (s.filter fun p => p.2.meta.document_id = d).length

/-! ## Chunk-window lemmas -/

/-- Unfolding equation for `chunkWinGo` with the inner `min` condition
normalised. -/
lemma chunkWinGo_eq (n cs step start : Nat) :
    chunkWinGo n cs step start =
      if 0 < step ∧ start < n then
        (start, min (start + cs) n) ::
          (if n ≤ start + cs then [] else chunkWinGo n cs step (start + step))
      else [] := by
  rw [chunkWinGo]
  have h2 : (n ≤ min (start + cs) n) = (n ≤ start + cs) := by simp [Nat.le_min]
  simp only [h2]
  split_ifs <;> rfl

section ChunkWin

variable {n cs step : Nat}

/-- Induction principle following the chunking loop. -/
lemma chunkWin_ind (hstep : 0 < step) (hsc : step ≤ cs) (P : Nat → Prop)
    (base : ∀ start, start < n → n ≤ start + cs → P start)
    (next : ∀ start, start < n → start + cs < n → P (start + step) → P start) :
    ∀ start, start < n → P start := by
  have main : ∀ fuel start, n - start ≤ fuel → start < n → P start := by
    intro fuel
    induction fuel with
    | zero => intro s hle hlt; omega
    | succ f ih =>
      intro s hle hlt
      by_cases hend : n ≤ s + cs
      · exact base s hlt hend
      · exact next s hlt (by omega) (ih (s + step) (by omega) (by omega))
  exact fun start h => main (n - start) start le_rfl h

/-- In the terminal iteration the loop emits a single clamped window. -/
lemma chunkWinGo_base {start : Nat} (hstep : 0 < step) (hlt : start < n)
    (hend : n ≤ start + cs) :
    chunkWinGo n cs step start = [(start, n)] := by
  rw [chunkWinGo_eq]
  simp [hstep, hlt, hend, Nat.min_eq_right hend]

/-- In a non-terminal iteration the loop emits a full window and recurses. -/
lemma chunkWinGo_next {start : Nat} (hstep : 0 < step) (hlt : start < n)
    (hend : start + cs < n) :
    chunkWinGo n cs step start =
      (start, start + cs) :: chunkWinGo n cs step (start + step) := by
  rw [chunkWinGo_eq]
  simp [hstep, hlt, Nat.min_eq_left (le_of_lt hend), if_neg (by omega : ¬ n ≤ start + cs)]

/-- Every window of the loop is `(start + i·step, min (start + i·step + cs) n)`. -/
lemma chunkWinGo_getD (hstep : 0 < step) (hsc : step ≤ cs) :
    ∀ start, start < n →
      ∀ i, i < (chunkWinGo n cs step start).length →
        (chunkWinGo n cs step start).getD i (0, 0) =
          (start + i * step, min (start + i * step + cs) n) := by
  refine chunkWin_ind hstep hsc _ ?_ ?_
  · intro s hlt hend i h
    rw [chunkWinGo_base hstep hlt hend] at h ⊢
    simp only [List.length_singleton] at h
    obtain rfl : i = 0 := by omega
    simp [Nat.min_eq_right hend]
  · intro s hlt hend ih i h
    rw [chunkWinGo_next hstep hlt hend] at h ⊢
    match i with
    | 0 => simp [Nat.min_eq_left (le_of_lt hend)]
    | i + 1 =>
      have h' : i < (chunkWinGo n cs step (s + step)).length := by
        simpa using Nat.lt_of_succ_lt_succ h
      have heq : s + step + i * step = s + (i + 1) * step := by ring
      simpa [heq] using ih i h'

/-- Every non-final window ends strictly before the end of the stream
(hence has full length `cs`). -/
lemma chunkWinGo_nonfinal (hstep : 0 < step) (hsc : step ≤ cs) :
    ∀ start, start < n →
      ∀ i, i + 1 < (chunkWinGo n cs step start).length → start + i * step + cs < n := by
  refine chunkWin_ind hstep hsc _ ?_ ?_
  · intro s hlt hend i h
    rw [chunkWinGo_base hstep hlt hend] at h
    simp at h
  · intro s hlt hend ih i h
    rw [chunkWinGo_next hstep hlt hend] at h
    match i with
    | 0 => simpa using hend
    | i + 1 =>
      have := ih i (by simpa using Nat.lt_of_succ_lt_succ h)
      have heq : (i + 1) * step = i * step + step := by ring
      omega

/-- The loop emits at least one window and the last window ends exactly at
the end of the token stream. -/
lemma chunkWinGo_last (hstep : 0 < step) (hsc : step ≤ cs) :
    ∀ start, start < n →
      ∃ a, (chunkWinGo n cs step start).getLast? = some (a, n) := by
  refine chunkWin_ind hstep hsc _ ?_ ?_
  · intro s hlt hend
    rw [chunkWinGo_base hstep hlt hend]
    exact ⟨s, rfl⟩
  · intro s hlt hend ih
    obtain ⟨a, iha⟩ := ih
    rw [chunkWinGo_next hstep hlt hend]
    refine ⟨a, ?_⟩
    rw [List.getLast?_cons, iha]
    rfl

/-- Full coverage: every token index from `start` on is inside some window. -/
lemma chunkWinGo_cover (hstep : 0 < step) (hsc : step ≤ cs) :
    ∀ start, start < n →
      ∀ j, start ≤ j → j < n →
        ∃ w ∈ chunkWinGo n cs step start, w.1 ≤ j ∧ j < w.2 := by
  refine chunkWin_ind hstep hsc _ ?_ ?_
  · intro s hlt hend j hj hjn
    rw [chunkWinGo_base hstep hlt hend]
    exact ⟨(s, n), by simp, hj, hjn⟩
  · intro s hlt hend ih j hj hjn
    rw [chunkWinGo_next hstep hlt hend]
    by_cases hcase : j < s + cs
    · exact ⟨(s, s + cs), by simp, hj, hcase⟩
    · obtain ⟨w, hw, h1, h2⟩ := ih j (by omega) hjn
      exact ⟨w, by simp [hw], h1, h2⟩

end ChunkWin

set_option maxRecDepth 4000 in
/-- C1: for a non-blank text whose token count `n` exceeds `chunk_size`,
and any overlap with `overlap < chunk_size`, `chunk_text` decodes exactly
the windows of the token stream produced by the loop: window `i` starts at
`i·step` with `step = chunk_size - overlap` and ends at
`min (i·step + chunk_size) n`; every non-final window has full length
`chunk_size`; the final window is clamped to end exactly at `n`; the
windows cover every token index with no gaps; and a 2500-token stream with
`chunk_size = 800`, `overlap = 100` yields exactly the four windows
`[0:800), [700:1500), [1400:2200), [2100:2500)`.  Determinism of the
boundary set is immediate since the embedding is a pure function of the
input and parameters. -/
theorem C1_chunk_windows (n cs ov : Nat) (hov : ov < cs) (hn : cs < n) :
    (∀ encode decode (text : List Char), pyStrip text ≠ [] →
        (encode text).length = n →
        chunk_text encode decode text cs ov =
          (chunkWindows n cs ov).map fun w => decode (pySliceN (encode text) w.1 w.2)) ∧
    (∀ i, i < (chunkWindows n cs ov).length →
        (chunkWindows n cs ov).getD i (0, 0) =
          (i * (cs - ov), min (i * (cs - ov) + cs) n)) ∧
    (∀ i, i + 1 < (chunkWindows n cs ov).length →
        ((chunkWindows n cs ov).getD i (0, 0)).2 = i * (cs - ov) + cs) ∧
    (∃ a, (chunkWindows n cs ov).getLast? = some (a, n)) ∧
    (∀ j, j < n → ∃ w ∈ chunkWindows n cs ov, w.1 ≤ j ∧ j < w.2) ∧
    chunkWindows 2500 800 100 = [(0, 800), (700, 1500), (1400, 2200), (2100, 2500)] := by
  have hstep : 0 < cs - ov := by omega
  have hsc : cs - ov ≤ cs := by omega
  have h0 : (0 : Nat) < n := by omega
  refine ⟨?_, ?_, ?_, ?_, ?_, ?_⟩
  · intro encode decode text hne hlen
    have h1 : text ≠ [] := by
      intro e; apply hne; simp [e, pyStrip, pyLStrip, pyRStrip]
    simp only [chunk_text, hlen]
    rw [if_neg (by simp [h1, hne]), if_neg (by omega)]
  · intro i h
    have := chunkWinGo_getD (n := n) hstep hsc 0 h0 i (by simpa [chunkWindows] using h)
    simpa [chunkWindows, Nat.mul_comm] using this
  · intro i h
    have hlen : i < (chunkWindows n cs ov).length := by omega
    have hfin := chunkWinGo_nonfinal (n := n) hstep hsc 0 h0 i
      (by simpa [chunkWindows] using h)
    have hget := chunkWinGo_getD (n := n) hstep hsc 0 h0 i
      (by simpa [chunkWindows] using hlen)
    simp only [chunkWindows] at hget ⊢
    rw [hget]
    simp only [zero_add] at hfin ⊢
    rw [Nat.min_eq_left (by omega), Nat.mul_comm]
  · simpa [chunkWindows] using chunkWinGo_last (n := n) hstep hsc 0 h0
  · intro j hj
    simpa [chunkWindows] using chunkWinGo_cover (n := n) hstep hsc 0 h0 j (Nat.zero_le j) hj
  · rw [chunkWindows, chunkWinGo, chunkWinGo, chunkWinGo, chunkWinGo]
    norm_num

/-- Witness for C1 at the spec's own example: 2500 tokens, chunk size 800,
overlap 100 give exactly the four expected windows. -/
theorem C1_chunk_windows_witness :
    (100 < 800 ∧ 800 < 2500) ∧
    chunkWindows 2500 800 100 = [(0, 800), (700, 1500), (1400, 2200), (2100, 2500)] :=
  ⟨⟨by norm_num, by norm_num⟩,
    (C1_chunk_windows 2500 800 100 (by norm_num) (by norm_num)).2.2.2.2.2⟩

/-- C8: a text whose token count is at most `chunk_size` is returned as the
single chunk `[text]` (provided it has any non-whitespace content at all),
and a blank text — empty or whitespace-only, i.e. zero extractable text —
yields zero chunks, not an error and not a single empty chunk. -/
theorem C8_short_text (encode : List Char → List Nat) (decode : List Nat → List Char)
    (text : List Char) (cs ov : Nat) :
    (pyStrip text = [] → chunk_text encode decode text cs ov = []) ∧
    (pyStrip text ≠ [] → (encode text).length ≤ cs →
      chunk_text encode decode text cs ov = [text]) := by
  constructor
  · intro h
    simp [chunk_text, h]
  · intro h hlen
    have h1 : text ≠ [] := by
      intro e; apply h; simp [e, pyStrip, pyLStrip, pyRStrip]
    simp only [chunk_text]
    rw [if_neg (by simp [h1, h]), if_pos hlen]

/-- Witness for C8: a whitespace-only text gives zero chunks, and a short
non-blank text comes back as the single chunk `[text]`. -/
theorem C8_short_text_witness :
    chunk_text (fun s => s.map Char.toNat) (fun _ => []) " ".toList 800 100 = [] ∧
    chunk_text (fun s => s.map Char.toNat) (fun _ => []) "ab".toList 800 100 = ["ab".toList] :=
  ⟨(C8_short_text _ _ _ _ _).1 (by decide),
    (C8_short_text (fun s => s.map Char.toNat) (fun _ => []) "ab".toList 800 100).2
      (by decide) (by decide)⟩

/-! ## Split/join and decimal-representation lemmas -/

lemma splitOnChar_ne_nil (sep : Char) (s : List Char) : splitOnChar sep s ≠ [] := by
  cases s with
  | nil => simp [splitOnChar]
  | cons c t =>
    rw [splitOnChar]
    rcases h : splitOnChar sep t with _ | ⟨h', r⟩
    · simp
    · split_ifs <;> simp

lemma mem_splitOnChar_no_sep (sep : Char) :
    ∀ s : List Char, ∀ l ∈ splitOnChar sep s, sep ∉ l := by
  intro s
  induction s with
  | nil =>
    intro l hl
    rw [splitOnChar, List.mem_singleton] at hl
    subst hl; simp
  | cons c t ih =>
    intro l hl
    rw [splitOnChar] at hl
    cases hsp : splitOnChar sep t with
    | nil => exact absurd hsp (splitOnChar_ne_nil sep t)
    | cons h' r =>
      rw [hsp] at hl
      simp only at hl
      by_cases hc : c = sep
      · rw [if_pos hc] at hl
        rcases List.mem_cons.mp hl with rfl | hl2
        · simp
        · exact ih l (hsp ▸ hl2)
      · rw [if_neg hc] at hl
        rcases List.mem_cons.mp hl with rfl | hl2
        · intro hmem
          rcases List.mem_cons.mp hmem with he | hmem2
          · exact hc he.symm
          · exact ih h' (by rw [hsp]; exact List.mem_cons_self h' r) hmem2
        · exact ih l (by rw [hsp]; exact List.mem_cons_of_mem h' hl2)

lemma splitOnChar_of_no_sep {sep : Char} {s : List Char} (h : sep ∉ s) :
    splitOnChar sep s = [s] := by
  induction s with
  | nil => rfl
  | cons c t ih =>
    have hc : c ≠ sep := fun e => h (by rw [e]; exact List.mem_cons_self sep t)
    rw [splitOnChar, ih (fun hm => h (List.mem_cons_of_mem c hm))]
    simp [hc]

lemma getLastD_of_ne_nil {α : Type} {l : List α} (h : l ≠ []) (d d' : α) :
    l.getLastD d = l.getLastD d' := by
  rw [List.getLastD_eq_getLast?, List.getLastD_eq_getLast?]
  cases hg : l.getLast? with
  | none => exact absurd (List.getLast?_eq_none.mp hg) h
  | some x => rfl

/-- The split of a string containing a separator has at least two parts. -/
lemma splitOnChar_append_len (sep : Char) (a b : List Char) :
    2 ≤ (splitOnChar sep (a ++ sep :: b)).length := by
  induction a with
  | nil =>
    rw [List.nil_append, splitOnChar]
    rcases h : splitOnChar sep b with _ | ⟨h', r⟩
    · exact absurd h (splitOnChar_ne_nil sep b)
    · simp
  | cons c a' ih =>
    rw [List.cons_append, splitOnChar]
    rcases h : splitOnChar sep (a' ++ sep :: b) with _ | ⟨h', r⟩
    · exact absurd h (splitOnChar_ne_nil sep _)
    · rw [h] at ih
      split_ifs <;> simp at ih ⊢ <;> omega

/-- The last dash-component of `a ++ '-' :: b` is `b` when `b` is dash-free. -/
lemma lastDashPart_append {a b : List Char} (hb : '-' ∉ b) :
    lastDashPart (a ++ '-' :: b) = b := by
  induction a with
  | nil =>
    rw [List.nil_append, lastDashPart, splitOnChar, splitOnChar_of_no_sep hb]
    simp
  | cons c a' ih =>
    rw [lastDashPart, List.cons_append, splitOnChar]
    rcases h : splitOnChar '-' (a' ++ '-' :: b) with _ | ⟨h', r⟩
    · exact absurd h (splitOnChar_ne_nil _ _)
    · have hr : r ≠ [] := by
        have := splitOnChar_append_len '-' a' b
        rw [h] at this
        simp at this
        intro e
        rw [e] at this
        simp at this
      have hlast : ∀ x : List Char, r.getLastD x = lastDashPart (a' ++ '-' :: b) := by
        intro x
        rw [lastDashPart, h, List.getLastD_cons]
        exact getLastD_of_ne_nil hr x h'
      split_ifs
      · rw [List.getLastD_cons, getLastD_of_ne_nil (by simp) ([] : List Char) h',
          List.getLastD_cons, hlast, ih]
      · rw [List.getLastD_cons, hlast, ih]

/-- The last dash-component of a dash-free string is the string itself. -/
lemma lastDashPart_of_no_dash {s : List Char} (h : '-' ∉ s) : lastDashPart s = s := by
  rw [lastDashPart, splitOnChar_of_no_sep h]
  rfl

lemma digitsVal_append_digit (l : List Char) (c : Char) :
    digitsVal (l ++ [c]) = digitsVal l * 10 + digitVal c := by
  simp [digitsVal, List.foldl_append]

lemma digitsVal_natReprGo : ∀ f n, n < f → digitsVal (natReprGo f n) = n := by
  intro f
  induction f with
  | zero => intro n h; omega
  | succ f ih =>
    intro n h
    rw [natReprGo]
    by_cases h10 : n < 10
    · rw [if_pos h10]
      interval_cases n <;> rfl
    · rw [if_neg h10]
      have hdiv : n / 10 < f := by
        have := Nat.div_lt_self (by omega : 0 < n) (by omega : 1 < 10)
        omega
      have hmod : n % 10 < 10 := Nat.mod_lt n (by omega)
      have hval : digitVal (digitChar (n % 10)) = n % 10 := by
        interval_cases h : n % 10 <;> rfl
      rw [digitsVal_append_digit, ih (n / 10) hdiv, hval]
      omega

lemma natRepr_injective : Function.Injective natRepr := by
  intro m n h
  have hm := digitsVal_natReprGo (m + 1) m (by omega)
  have hn := digitsVal_natReprGo (n + 1) n (by omega)
  have hMN : digitsVal (natRepr m) = digitsVal (natRepr n) := by rw [h]
  simp only [natRepr] at hMN
  omega

lemma mem_natReprGo : ∀ f n c, c ∈ natReprGo f n → ∃ k, k < 10 ∧ c = digitChar k := by
  intro f
  induction f with
  | zero => intro n c h; simp [natReprGo] at h
  | succ f ih =>
    intro n c h
    rw [natReprGo] at h
    by_cases h10 : n < 10
    · rw [if_pos h10] at h
      simp at h
      exact ⟨n, h10, h⟩
    · rw [if_neg h10] at h
      rcases List.mem_append.mp h with h' | h'
      · exact ih _ c h'
      · simp at h'
        exact ⟨n % 10, Nat.mod_lt n (by omega), h'⟩

lemma natRepr_no_dash (n : Nat) : '-' ∉ natRepr n := by
  intro h
  obtain ⟨k, hk, he⟩ := mem_natReprGo (n + 1) n '-' h
  interval_cases k <;> simp [digitChar] at he

lemma natRepr_ne_nil (n : Nat) : natRepr n ≠ [] := by
  rw [natRepr, natReprGo]
  split_ifs <;> simp

/-! ## Page-propagation lemmas -/

/-- The `extract_pages_from_chunk` returns `""`, `"N"`, or `"N-M"`. -/
lemma extract_pages_shape (c : List Char) :
    extract_pages_from_chunk c = [] ∨
    (∃ a, extract_pages_from_chunk c = natRepr a) ∨
    (∃ a b, extract_pages_from_chunk c = natRepr a ++ '-' :: natRepr b) := by
  rcases hpm : findPageMarkers c with _ | ⟨p, rest⟩ <;>
    simp only [extract_pages_from_chunk, hpm]
  · exact Or.inl trivial
  · split_ifs with h
    · exact Or.inr (Or.inl ⟨p, rfl⟩)
    · exact Or.inr (Or.inr ⟨p, (p :: rest).getLastD 0, rfl⟩)

/-- When `extract_pages_from_chunk` is non-empty, its last dash-component
is non-empty and dash-free. -/
lemma lastDashPart_extract_pages (c : List Char)
    (h : extract_pages_from_chunk c ≠ []) :
    lastDashPart (extract_pages_from_chunk c) ≠ [] ∧
      '-' ∉ lastDashPart (extract_pages_from_chunk c) := by
  rcases extract_pages_shape c with he | ⟨a, he⟩ | ⟨a, b, he⟩
  · exact absurd he h
  · rw [he, lastDashPart_of_no_dash (natRepr_no_dash a)]
    exact ⟨natRepr_ne_nil a, natRepr_no_dash a⟩
  · rw [he, lastDashPart_append (natRepr_no_dash b)]
    exact ⟨natRepr_ne_nil b, natRepr_no_dash b⟩

/-- Normal form of one step of the page-propagation loop. -/
lemma resolvePagesGo_cons (acc c : List Char) (cs : List (List Char)) :
    resolvePagesGo acc (c :: cs) =
      (if extract_pages_from_chunk c ≠ [] then extract_pages_from_chunk c else acc) ::
        resolvePagesGo
          (if extract_pages_from_chunk c ≠ [] then
            lastDashPart (extract_pages_from_chunk c) else acc) cs := by
  rw [resolvePagesGo]
  split_ifs <;> rfl

lemma resolvePagesGo_length (acc : List Char) (chunks : List (List Char)) :
    (resolvePagesGo acc chunks).length = chunks.length := by
  induction chunks generalizing acc with
  | nil => rfl
  | cons c cs ih => rw [resolvePagesGo_cons]; simp [ih]

lemma resolvePagesGo_getD_marker :
    ∀ (chunks : List (List Char)) (acc : List Char) i, i < chunks.length →
      extract_pages_from_chunk (chunks.getD i []) ≠ [] →
      (resolvePagesGo acc chunks).getD i [] = extract_pages_from_chunk (chunks.getD i []) := by
  intro chunks
  induction chunks with
  | nil => intro acc i h; simp at h
  | cons c cs ih =>
    intro acc i h hp
    rw [resolvePagesGo_cons]
    match i with
    | 0 =>
      simp only [List.getD_cons_zero] at hp ⊢
      rw [if_pos hp]
    | i + 1 =>
      simp only [List.getD_cons_succ] at hp ⊢
      exact ih _ i (by simpa using h) hp

lemma resolvePagesGo_getD_consec :
    ∀ (chunks : List (List Char)) (acc : List Char), '-' ∉ acc →
      ∀ i, i + 1 < chunks.length →
        extract_pages_from_chunk (chunks.getD (i + 1) []) = [] →
        (resolvePagesGo acc chunks).getD (i + 1) [] =
          lastDashPart ((resolvePagesGo acc chunks).getD i []) := by
  intro chunks
  induction chunks with
  | nil => intro acc hacc i h; simp at h
  | cons c cs ih =>
    intro acc hacc i h hp
    match i with
    | 0 =>
      match cs, h with
      | c1 :: cs', _ =>
        simp only [List.getD_cons_succ, List.getD_cons_zero] at hp ⊢
        rw [resolvePagesGo_cons, resolvePagesGo_cons]
        simp only [List.getD_cons_succ, List.getD_cons_zero]
        rw [if_neg (by simp [hp])]
        split_ifs with hs
        · rfl
        · exact (lastDashPart_of_no_dash hacc).symm
    | i + 1 =>
      simp only [List.getD_cons_succ] at hp ⊢
      rw [resolvePagesGo_cons]
      simp only [List.getD_cons_succ]
      split_ifs with hs
      · exact ih _ (lastDashPart_extract_pages c hs).2 i (by simpa using h) hp
      · exact ih _ hacc i (by simpa using h) hp

lemma resolvePagesGo_stays :
    ∀ (chunks : List (List Char)) (acc : List Char), acc ≠ [] →
      ∀ i, i < chunks.length → (resolvePagesGo acc chunks).getD i [] ≠ [] := by
  intro chunks
  induction chunks with
  | nil => intro acc hacc i h; simp at h
  | cons c cs ih =>
    intro acc hacc i h
    rw [resolvePagesGo_cons]
    match i with
    | 0 =>
      simp only [List.getD_cons_zero]
      split_ifs with hs
      · exact hs
      · exact hacc
    | i + 1 =>
      simp only [List.getD_cons_succ]
      split_ifs with hs
      · exact ih _ (lastDashPart_extract_pages c hs).1 i (by simpa using h)
      · exact ih _ hacc i (by simpa using h)

lemma resolvePagesGo_mono :
    ∀ (chunks : List (List Char)) (acc : List Char) i j, i ≤ j → j < chunks.length →
      (resolvePagesGo acc chunks).getD i [] ≠ [] →
      (resolvePagesGo acc chunks).getD j [] ≠ [] := by
  intro chunks
  induction chunks with
  | nil => intro acc i j hij hj; simp at hj
  | cons c cs ih =>
    intro acc i j hij hj hi
    rw [resolvePagesGo_cons] at hi ⊢
    match i, j with
    | 0, 0 => exact hi
    | 0, j + 1 =>
      simp only [List.getD_cons_zero] at hi
      simp only [List.getD_cons_succ]
      split_ifs at hi ⊢ with hs
      · exact resolvePagesGo_stays cs _ (lastDashPart_extract_pages c hs).1 j
          (by simpa using hj)
      · exact resolvePagesGo_stays cs _ hi j (by simpa using hj)
    | i + 1, j + 1 =>
      simp only [List.getD_cons_succ] at hi ⊢
      split_ifs at hi ⊢ with hs
      · exact ih _ i j (by omega) (by simpa using hj) hi
      · exact ih _ i j (by omega) (by simpa using hj) hi

/-- C2 counterexample: the first chunk spans pages 1–2 (`pages = "1-2"`),
the second chunk has no markers; the code stores `"2"` for it — the last
page number of the preceding chunk — not the preceding chunk's full
resolved value `"1-2"` as the claim requires. -/
theorem C2_pages_counterexample :
    extract_pages_from_chunk "continuation".toList = [] ∧
    resolvePages ["[PAGE:1] intro [PAGE:2]".toList, "continuation".toList] =
      ["1-2".toList, "2".toList] ∧
    ("2".toList : List Char) ≠ "1-2".toList := by decide

/-- C2 (amended): each stored `pages` value is the chunk's own
marker-derived value when it has markers, and otherwise equals the **last
page number** (final dash-component) of the immediately preceding chunk's
resolved value; and non-emptiness propagates — no chunk has an empty
`pages` value once an earlier chunk's value is non-empty. -/
theorem C2_pages_amended (chunks : List (List Char)) :
    (resolvePages chunks).length = chunks.length ∧
    (∀ i, i < chunks.length →
       extract_pages_from_chunk (chunks.getD i []) ≠ [] →
       (resolvePages chunks).getD i [] = extract_pages_from_chunk (chunks.getD i [])) ∧
    (∀ i, i + 1 < chunks.length →
       extract_pages_from_chunk (chunks.getD (i + 1) []) = [] →
       (resolvePages chunks).getD (i + 1) [] =
         lastDashPart ((resolvePages chunks).getD i [])) ∧
    (∀ i j, i ≤ j → j < chunks.length →
       (resolvePages chunks).getD i [] ≠ [] →
       (resolvePages chunks).getD j [] ≠ []) := by
  refine ⟨resolvePagesGo_length [] chunks, ?_, ?_, ?_⟩
  · exact fun i h hp => resolvePagesGo_getD_marker chunks [] i h hp
  · exact fun i h hp => resolvePagesGo_getD_consec chunks [] (by simp) i h hp
  · exact fun i j hij hj hi => resolvePagesGo_mono chunks [] i j hij hj hi

/-- Witness for C2 (amended): a marker-free chunk inherits the final
dash-component of its predecessor's resolved value. -/
theorem C2_pages_amended_witness :
    (resolvePages ["[PAGE:3]x".toList, "y".toList]).getD 1 [] =
      lastDashPart ((resolvePages ["[PAGE:3]x".toList, "y".toList]).getD 0 []) :=
  (C2_pages_amended _).2.2.1 0 (by decide) (by decide)

/-! ## Low-quality-filter lemmas (C5) -/

/-- The exact rational ratio test of the filter is equivalent to the
cross-multiplied integer comparison. -/
lemma dotRatio_iff (t : List Char) :
    ((dotLineCount t : ℚ) / (totalLineCount t : ℚ) > 1 / 5) ↔
      totalLineCount t < 5 * dotLineCount t := by
  have htpos : 0 < totalLineCount t := le_max_right _ 1
  rw [gt_iff_lt, div_lt_div_iff (by norm_num) (by exact_mod_cast htpos)]
  constructor
  · intro hh
    exact_mod_cast (by linarith : (totalLineCount t : ℚ) < 5 * dotLineCount t)
  · intro hh
    have : (totalLineCount t : ℚ) < 5 * (dotLineCount t : ℚ) := by exact_mod_cast hh
    linarith

/-- C5 (amended): a candidate chunk is dropped as low quality exactly when
its stripped text is under 100 characters, or when **more than three**
lines carry a dot-leader run *and* those lines are more than 20% of all
lines.  (The claim omits the `dot_lines > 3` conjunct.) -/
theorem C5_low_quality_amended (t : List Char) :
    is_low_quality_chunk t = true ↔
      ((pyStrip t).length < 100 ∨
        (3 < dotLineCount t ∧ totalLineCount t < 5 * dotLineCount t)) := by
  rw [is_low_quality_chunk]
  split_ifs with h1 h2
  · exact iff_of_true rfl (Or.inl h1)
  · exact iff_of_true rfl (Or.inr ⟨h2.1, (dotRatio_iff t).mp h2.2⟩)
  · refine iff_of_false (by simp) ?_
    rintro (hc | ⟨hc1, hc2⟩)
    · exact h1 hc
    · exact h2 ⟨hc1, (dotRatio_iff t).mpr hc2⟩

set_option maxRecDepth 100000 in
/-- C5 counterexample: a 154-character chunk of five lines where two lines
(40% > 20%) carry dot-leader runs satisfies the claim's drop condition, but
the code keeps it because only 2 <= 3 lines carry dot-leaders. -/
theorem C5_low_quality_counterexample :
    is_low_quality_chunk
        ("aaaaaaaaaaaaa....aaaaaaaaaaaaa\naaaaaaaaaaaaa....aaaaaaaaaaaaa\naaaaaaaaaaaaaaaaaaaaaaaaaaaaaa\naaaaaaaaaaaaaaaaaaaaaaaaaaaaaa\naaaaaaaaaaaaaaaaaaaaaaaaaaaaaa".toList) = false ∧
    ¬ (pyStrip
        ("aaaaaaaaaaaaa....aaaaaaaaaaaaa\naaaaaaaaaaaaa....aaaaaaaaaaaaa\naaaaaaaaaaaaaaaaaaaaaaaaaaaaaa\naaaaaaaaaaaaaaaaaaaaaaaaaaaaaa\naaaaaaaaaaaaaaaaaaaaaaaaaaaaaa".toList)).length < 100 ∧
    ((dotLineCount
        ("aaaaaaaaaaaaa....aaaaaaaaaaaaa\naaaaaaaaaaaaa....aaaaaaaaaaaaa\naaaaaaaaaaaaaaaaaaaaaaaaaaaaaa\naaaaaaaaaaaaaaaaaaaaaaaaaaaaaa\naaaaaaaaaaaaaaaaaaaaaaaaaaaaaa".toList) : ℚ) /
      (totalLineCount
        ("aaaaaaaaaaaaa....aaaaaaaaaaaaa\naaaaaaaaaaaaa....aaaaaaaaaaaaa\naaaaaaaaaaaaaaaaaaaaaaaaaaaaaa\naaaaaaaaaaaaaaaaaaaaaaaaaaaaaa\naaaaaaaaaaaaaaaaaaaaaaaaaaaaaa".toList) : ℚ) > 1 / 5) := by
  refine ⟨by decide, by decide, (dotRatio_iff _).mpr (by decide)⟩

/-! ## Text-cleaning lemmas (C9) -/

/-- A string may not end in whitespace other than a newline (final-line
trailing-whitespace check). -/
def endsOkC (c : Char) : Bool := !(pyIsSpace c && !(decide (c = '\n')))

/-- No line of the string carries trailing whitespace: no whitespace
character other than `'\n'` sits immediately before a `'\n'` or at the end
of the string. -/
def noTrailWS : List Char → Bool
  | [] => true
  | [c] => endsOkC c
  | c :: d :: t =>
    if pyIsSpace c = true ∧ c ≠ '\n' ∧ d = '\n' then false else noTrailWS (d :: t)

lemma dropWhile_eq_self_of_head {p : Char → Bool} {l : List Char}
    (h : ∀ c, l.head? = some c → p c = false) : l.dropWhile p = l := by
  cases l with
  | nil => rfl
  | cons a t =>
    rw [List.dropWhile_cons, if_neg]
    rw [h a rfl]
    simp

lemma head_of_dropWhile_eq_self {p : Char → Bool} {l : List Char}
    (h : l.dropWhile p = l) : ∀ c, l.head? = some c → p c = false := by
  intro c hc
  cases l with
  | nil => simp at hc
  | cons a t =>
    have hac : a = c := by simpa using hc
    by_contra hp
    have hp' : p a = true := by rw [hac]; simpa using hp
    rw [List.dropWhile_cons, if_pos hp'] at h
    have h1 : (t.dropWhile p).length ≤ t.length :=
      List.Sublist.length_le (List.dropWhile_sublist _)
    have h2 := congrArg List.length h
    simp at h2
    omega

/-- The `pyRStrip` fixes exactly the strings whose last character is not
whitespace. -/
lemma pyRStrip_eq_self_iff {l : List Char} :
    pyRStrip l = l ↔ (∀ c, l.getLast? = some c → pyIsSpace c = false) := by
  have hrev : pyRStrip l = l ↔ l.reverse.dropWhile pyIsSpace = l.reverse := by
    rw [pyRStrip]
    constructor
    · intro h
      conv_rhs => rw [← h]
      rw [List.reverse_reverse]
    · intro h
      rw [h, List.reverse_reverse]
  rw [hrev]
  constructor
  · intro h c hc
    exact head_of_dropWhile_eq_self h c (by rwa [List.head?_reverse])
  · intro h
    exact dropWhile_eq_self_of_head (fun c hc => h c (by rwa [← List.head?_reverse]))

lemma pyRStrip_head_not_space (l : List Char) :
    ∀ c, (pyRStrip l).getLast? = some c → pyIsSpace c = false := by
  intro c hc
  rw [pyRStrip, ← List.head?_reverse, List.reverse_reverse] at hc
  have := List.head?_dropWhile_not pyIsSpace l.reverse
  rw [hc] at this
  exact this

/-- The `pyRStrip` is idempotent. -/
lemma pyRStrip_idem (l : List Char) : pyRStrip (pyRStrip l) = pyRStrip l :=
  pyRStrip_eq_self_iff.mpr (pyRStrip_head_not_space l)

/-- The `noTrailWS` is closed under removing a prefix. -/
lemma noTrailWS_suffix : ∀ (u v : List Char), noTrailWS (u ++ v) = true →
    noTrailWS v = true := by
  intro u
  induction u with
  | nil => exact fun v h => h
  | cons a u' ih =>
    intro v h
    apply ih
    rw [List.cons_append] at h
    cases huv : u' ++ v with
    | nil => rfl
    | cons b w =>
      rw [huv] at h
      rw [noTrailWS] at h
      split_ifs at h
      exact h

/-- The `noTrailWS` is closed under removing a suffix, provided the remaining
prefix does not end in whitespace. -/
lemma noTrailWS_of_append : ∀ (u w : List Char), noTrailWS (u ++ w) = true →
    (∀ c, u.getLast? = some c → pyIsSpace c = false) → noTrailWS u = true := by
  intro u
  induction u with
  | nil => intro w _ _; rfl
  | cons a u' ih =>
    intro w h hlast
    cases u' with
    | nil =>
      rw [noTrailWS, endsOkC]
      have := hlast a rfl
      simp [this]
    | cons b u'' =>
      rw [noTrailWS]
      rw [List.cons_append, List.cons_append] at h
      rw [noTrailWS] at h
      split_ifs at h with hbad
      rw [if_neg hbad]
      exact ih w h (fun c hc => hlast c (by rw [List.getLast?_cons_cons]; exact hc))

lemma noTrailWS_cons_cons (c d : Char) (t : List Char) :
    noTrailWS (c :: d :: t) =
      if pyIsSpace c = true ∧ c ≠ '\n' ∧ d = '\n' then false
      else noTrailWS (d :: t) := rfl

lemma joinChar_cons_cons (sep : Char) (l l' : List Char) (ps : List (List Char)) :
    joinChar sep (l :: l' :: ps) = l ++ sep :: joinChar sep (l' :: ps) := rfl

/-- Normal form of one step of `splitOnChar`. -/
lemma splitOnChar_cons (sep c : Char) (t : List Char) :
    splitOnChar sep (c :: t) =
      if c = sep then [] :: splitOnChar sep t
      else (c :: (splitOnChar sep t).headD []) :: (splitOnChar sep t).tail := by
  rw [splitOnChar]
  cases h : splitOnChar sep t with
  | nil => exact absurd h (splitOnChar_ne_nil sep t)
  | cons h' r => split_ifs <;> simp

lemma noTrailWS_nl_cons {rest : List Char} (hrest : noTrailWS rest = true) :
    noTrailWS ('\n' :: rest) = true := by
  cases rest with
  | nil => rfl
  | cons r t =>
    rw [noTrailWS_cons_cons, if_neg (fun hc => hc.2.1 rfl)]
    exact hrest

/-- A newline-free line whose last character is not whitespace satisfies
`noTrailWS`. -/
lemma noTrailWS_of_line : ∀ l : List Char, '\n' ∉ l →
    (∀ c, l.getLast? = some c → pyIsSpace c = false) → noTrailWS l = true := by
  intro l
  induction l with
  | nil => intro _ _; rfl
  | cons a t ih =>
    intro hnl hlast
    cases t with
    | nil =>
      have h : noTrailWS [a] = endsOkC a := rfl
      rw [h, endsOkC]
      have := hlast a rfl
      simp [this]
    | cons b t' =>
      rw [noTrailWS_cons_cons]
      have hb : b ≠ '\n' := fun e =>
        hnl (by rw [e] at *; exact List.mem_cons_of_mem a (List.mem_cons_self _ _))
      rw [if_neg (fun hc => hb hc.2.2)]
      exact ih (fun hm => hnl (List.mem_cons_of_mem a hm))
        (fun c hc => hlast c (by rw [List.getLast?_cons_cons]; exact hc))

/-- Joining a clean line in front of a `noTrailWS` tail preserves
`noTrailWS`. -/
lemma noTrailWS_line_append : ∀ l rest : List Char, '\n' ∉ l →
    (∀ c, l.getLast? = some c → pyIsSpace c = false) →
    noTrailWS rest = true → noTrailWS (l ++ '\n' :: rest) = true := by
  intro l
  induction l with
  | nil => intro rest _ _ hrest; exact noTrailWS_nl_cons hrest
  | cons a l' ih =>
    intro rest hnl hlast hrest
    cases l' with
    | nil =>
      rw [List.singleton_append, noTrailWS_cons_cons]
      have hws := hlast a rfl
      rw [if_neg (fun hc => by rw [hws] at hc; exact absurd hc.1 (by simp))]
      exact noTrailWS_nl_cons hrest
    | cons b l'' =>
      rw [List.cons_append, List.cons_append, noTrailWS_cons_cons]
      have hb : b ≠ '\n' := fun e =>
        hnl (by rw [e] at *; exact List.mem_cons_of_mem a (List.mem_cons_self _ _))
      rw [if_neg (fun hc => hb hc.2.2)]
      exact ih rest (fun hm => hnl (List.mem_cons_of_mem a hm))
        (fun c hc => hlast c (by rw [List.getLast?_cons_cons]; exact hc)) hrest

/-- The join of newline-free, right-stripped lines satisfies `noTrailWS`. -/
lemma noTrailWS_joinChar : ∀ parts : List (List Char),
    (∀ l ∈ parts, '\n' ∉ l ∧ pyRStrip l = l) →
    noTrailWS (joinChar '\n' parts) = true := by
  intro parts
  induction parts with
  | nil => intro _; rfl
  | cons l ps ih =>
    intro h
    cases ps with
    | nil =>
      obtain ⟨hnl, hrs⟩ := h l (List.mem_cons_self _ _)
      exact noTrailWS_of_line l hnl (pyRStrip_eq_self_iff.mp hrs)
    | cons l' ps' =>
      rw [joinChar_cons_cons]
      obtain ⟨hnl, hrs⟩ := h l (List.mem_cons_self _ _)
      exact noTrailWS_line_append l _ hnl (pyRStrip_eq_self_iff.mp hrs)
        (ih (fun x hx => h x (List.mem_cons_of_mem l hx)))

/-- Every line of a `noTrailWS` string is right-stripped. -/
lemma split_rstripped : ∀ x : List Char, noTrailWS x = true →
    ∀ l ∈ splitOnChar '\n' x, pyRStrip l = l := by
  intro x
  induction x with
  | nil =>
    intro _ l hl
    rw [splitOnChar, List.mem_singleton] at hl
    subst hl; rfl
  | cons c t ih =>
    intro h l hl
    have ht : noTrailWS t = true := noTrailWS_suffix [c] t h
    cases hsp : splitOnChar '\n' t with
    | nil => exact absurd hsp (splitOnChar_ne_nil _ t)
    | cons h' r =>
      rw [splitOnChar_cons, hsp] at hl
      simp only [List.headD_cons, List.tail_cons] at hl
      by_cases hc : c = '\n'
      · rw [if_pos hc] at hl
        rcases List.mem_cons.mp hl with rfl | hl2
        · rfl
        · exact ih ht l (by rw [hsp]; exact hl2)
      · rw [if_neg hc] at hl
        rcases List.mem_cons.mp hl with rfl | hl2
        · rw [pyRStrip_eq_self_iff]
          intro d hd
          cases hh : h' with
          | nil =>
            rw [hh] at hd
            have hdc : d = c := by simpa using hd.symm
            subst hdc
            cases t with
            | nil =>
              have h1 : noTrailWS [d] = endsOkC d := rfl
              rw [h1, endsOkC] at h
              simpa [hc] using h
            | cons e t' =>
              have he : e = '\n' := by
                rw [splitOnChar_cons] at hsp
                by_cases he' : e = '\n'
                · exact he'
                · rw [if_neg he'] at hsp
                  rw [hh] at hsp
                  have := (List.cons.injEq _ _ _ _ ▸ hsp).1
                  simp at this
              rw [he, noTrailWS_cons_cons] at h
              split_ifs at h with hbad
              by_contra hws
              exact hbad ⟨by simpa using hws, hc, rfl⟩
          | cons f h'' =>
            have hr : pyRStrip h' = h' :=
              ih ht h' (by rw [hsp]; exact List.mem_cons_self _ _)
            have := pyRStrip_eq_self_iff.mp hr d
            apply this
            rw [hh]
            rw [hh] at hd
            rwa [List.getLast?_cons_cons] at hd
        · exact ih ht l (by rw [hsp]; exact List.mem_cons_of_mem h' hl2)

lemma noTrailWS_pyLStrip {x : List Char} (h : noTrailWS x = true) :
    noTrailWS (pyLStrip x) = true := by
  have hx : x.takeWhile pyIsSpace ++ x.dropWhile pyIsSpace = x :=
    List.takeWhile_append_dropWhile _ _
  exact noTrailWS_suffix (x.takeWhile pyIsSpace) (x.dropWhile pyIsSpace) (by rw [hx]; exact h)

lemma noTrailWS_pyRStrip {x : List Char} (h : noTrailWS x = true) :
    noTrailWS (pyRStrip x) = true := by
  have hx : pyRStrip x ++ (x.reverse.takeWhile pyIsSpace).reverse = x := by
    rw [pyRStrip, ← List.reverse_append, List.takeWhile_append_dropWhile _ _,
      List.reverse_reverse]
  exact noTrailWS_of_append _ _ (by rw [hx]; exact h) (pyRStrip_head_not_space x)

lemma mem_pyRStrip_subset {c : Char} {l : List Char} (h : c ∈ pyRStrip l) : c ∈ l := by
  rw [pyRStrip, List.mem_reverse] at h
  exact List.mem_reverse.mp (List.Sublist.subset (List.dropWhile_sublist _) h)

lemma mem_pyLStrip_subset {c : Char} {l : List Char} (h : c ∈ pyLStrip l) : c ∈ l :=
  List.Sublist.subset (List.dropWhile_sublist _) h

lemma mem_pyStrip_subset {c : Char} {l : List Char} (h : c ∈ pyStrip l) : c ∈ l :=
  mem_pyLStrip_subset (mem_pyRStrip_subset h)

/-- Every line of `clean_text` is right-stripped. -/
lemma clean_text_noTrail (s : List Char) : noTrailWS (clean_text s) = true := by
  rw [clean_text]
  apply noTrailWS_pyRStrip
  apply noTrailWS_pyLStrip
  apply noTrailWS_joinChar
  intro l hl
  obtain ⟨l0, hl0, rfl⟩ := List.mem_map.mp hl
  constructor
  · intro hm
    exact mem_splitOnChar_no_sep '\n' _ l0 hl0 (mem_pyRStrip_subset hm)
  · exact pyRStrip_idem l0

lemma mem_collapseNLGo : ∀ (t : List Char) (n : Nat) (c : Char),
    c ∈ collapseNLGo n t → c = '\n' ∨ c ∈ t := by
  intro t
  induction t with
  | nil =>
    intro n c h
    rw [collapseNLGo] at h
    exact Or.inl (List.eq_of_mem_replicate h)
  | cons a t' ih =>
    intro n c h
    rw [collapseNLGo] at h
    split_ifs at h with ha
    · rcases ih (n + 1) c h with h' | h'
      · exact Or.inl h'
      · exact Or.inr (List.mem_cons_of_mem a h')
    · rcases List.mem_append.mp h with h' | h'
      · exact Or.inl (List.eq_of_mem_replicate h')
      · rcases List.mem_cons.mp h' with rfl | h''
        · exact Or.inr (List.mem_cons_self _ _)
        · rcases ih 0 c h'' with h3 | h3
          · exact Or.inl h3
          · exact Or.inr (List.mem_cons_of_mem a h3)

lemma mem_splitOnChar_subset (sep : Char) :
    ∀ (x : List Char) (l : List Char), l ∈ splitOnChar sep x → ∀ c ∈ l, c ∈ x := by
  intro x
  induction x with
  | nil =>
    intro l hl c hc
    rw [splitOnChar, List.mem_singleton] at hl
    subst hl
    simp at hc
  | cons a t ih =>
    intro l hl c hc
    rw [splitOnChar_cons] at hl
    cases hsp : splitOnChar sep t with
    | nil => exact absurd hsp (splitOnChar_ne_nil sep t)
    | cons h' r =>
      rw [hsp] at hl
      simp only [List.headD_cons, List.tail_cons] at hl
      split_ifs at hl with ha
      · rcases List.mem_cons.mp hl with rfl | hl2
        · simp at hc
        · exact List.mem_cons_of_mem a (ih l (by rw [hsp]; exact hl2) c hc)
      · rcases List.mem_cons.mp hl with rfl | hl2
        · rcases List.mem_cons.mp hc with rfl | hc2
          · exact List.mem_cons_self _ _
          · exact List.mem_cons_of_mem a
              (ih h' (by rw [hsp]; exact List.mem_cons_self _ _) c hc2)
        · exact List.mem_cons_of_mem a
            (ih l (by rw [hsp]; exact List.mem_cons_of_mem h' hl2) c hc)

lemma mem_joinChar_or (sep : Char) :
    ∀ (parts : List (List Char)) (c : Char), c ∈ joinChar sep parts →
      c = sep ∨ ∃ l ∈ parts, c ∈ l := by
  intro parts
  induction parts with
  | nil => intro c h; simp [joinChar] at h
  | cons l ps ih =>
    intro c h
    cases ps with
    | nil => exact Or.inr ⟨l, List.mem_cons_self _ _, h⟩
    | cons l' ps' =>
      rw [joinChar_cons_cons] at h
      rcases List.mem_append.mp h with h' | h'
      · exact Or.inr ⟨l, List.mem_cons_self _ _, h'⟩
      · rcases List.mem_cons.mp h' with rfl | h''
        · exact Or.inl rfl
        · rcases ih c h'' with h3 | ⟨l2, hl2, hc2⟩
          · exact Or.inl h3
          · exact Or.inr ⟨l2, List.mem_cons_of_mem l hl2, hc2⟩

/-- Characters of `clean_text s` are newlines or non-removed characters. -/
lemma mem_clean_text {s : List Char} {c : Char} (h : c ∈ clean_text s) :
    c = '\n' ∨ isRemovedCtrl c = false := by
  rw [clean_text] at h
  have h1 := mem_pyStrip_subset h
  rcases mem_joinChar_or '\n' _ c h1 with hnl | ⟨l, hl, hc⟩
  · exact Or.inl hnl
  · obtain ⟨l0, hl0, rfl⟩ := List.mem_map.mp hl
    have h2 := mem_splitOnChar_subset '\n' _ l0 hl0 c (mem_pyRStrip_subset hc)
    rcases mem_collapseNLGo _ 0 c h2 with h3 | h3
    · exact Or.inl h3
    · exact Or.inr (by simpa using (List.mem_filter.mp h3).2)

lemma char_eq_of_toNat {c d : Char} (h : c.toNat = d.toNat) : c = d := by
  apply Char.ext
  exact UInt32.toNat.inj h

lemma isSubL_nnn_cons_ne {c : Char} (hc : c ≠ '\n') (rest : List Char) :
    isSubL ['\n', '\n', '\n'] (c :: rest) = isSubL ['\n', '\n', '\n'] rest := by
  have hcc : ('\n' = c) = False := by simp [Ne.symm hc]
  rw [isSubL]
  rw [show headMatch ['\n', '\n', '\n'] (c :: rest) =
    (decide ('\n' = c) && headMatch ['\n', '\n'] rest) from rfl]
  simp [hcc]

lemma isSubL_nnn_emit {k : Nat} (hk : k ≤ 2) :
    isSubL ['\n', '\n', '\n'] (List.replicate k '\n') = false := by
  interval_cases k <;> decide

lemma isSubL_nnn_emit_append {k : Nat} (hk : k ≤ 2) {c : Char} (hc : c ≠ '\n')
    {rest : List Char} (h : isSubL ['\n', '\n', '\n'] (c :: rest) = false) :
    isSubL ['\n', '\n', '\n'] (List.replicate k '\n' ++ c :: rest) = false := by
  have hcc : ('\n' = c) = False := by simp [Ne.symm hc]
  interval_cases k
  · simpa using h
  · show isSubL ['\n', '\n', '\n'] ('\n' :: c :: rest) = false
    rw [isSubL]
    rw [show headMatch ['\n', '\n', '\n'] ('\n' :: c :: rest) =
      (decide ('\n' = '\n') && (decide ('\n' = c) && headMatch ['\n'] rest)) from rfl]
    simp [hcc, h]
  · show isSubL ['\n', '\n', '\n'] ('\n' :: '\n' :: c :: rest) = false
    rw [isSubL]
    rw [show headMatch ['\n', '\n', '\n'] ('\n' :: '\n' :: c :: rest) =
      (decide ('\n' = '\n') && (decide ('\n' = '\n') &&
        (decide ('\n' = c) && headMatch ([] : List Char) rest))) from rfl]
    rw [isSubL]
    rw [show headMatch ['\n', '\n', '\n'] ('\n' :: c :: rest) =
      (decide ('\n' = '\n') && (decide ('\n' = c) && headMatch ['\n'] rest)) from rfl]
    simp [hcc, h]

/-- The newline-collapsing stage never leaves three consecutive newlines. -/
lemma collapseNL_no_triple : ∀ (t : List Char) (n : Nat),
    isSubL ['\n', '\n', '\n'] (collapseNLGo n t) = false := by
  intro t
  induction t with
  | nil =>
    intro n
    rw [collapseNLGo, collapseEmit]
    exact isSubL_nnn_emit (by split_ifs <;> omega)
  | cons a t' ih =>
    intro n
    rw [collapseNLGo]
    split_ifs with ha
    · exact ih (n + 1)
    · rw [collapseEmit]
      exact isSubL_nnn_emit_append (by split_ifs <;> omega) ha
        (by rw [isSubL_nnn_cons_ne ha]; exact ih 0)

/-- C9 counterexample: a carriage return (`\r`, a control character that is
neither newline nor tab) passes through `clean_text` untouched, because the
removal class `[\x00-\x08\x0b\x0c\x0e-\x1f\x7f]` deliberately skips
`\x0d`. -/
theorem C9_clean_text_counterexample :
    clean_text ('a' :: '\r' :: 'b' :: []) = 'a' :: '\r' :: 'b' :: [] ∧
    '\r'.toNat ≤ 31 ∧ '\r' ≠ '\n' ∧ '\r' ≠ '\t' := by decide

/-- C9 (amended): `clean_text` strips control characters except newline,
tab **and carriage return**; collapses runs of 3 or more consecutive
newline characters to exactly 2 (demonstrated concretely by the final
conjunct, and no three consecutive newlines survive the collapsing stage);
and strips trailing whitespace from every line of the result (the final
surrounding-whitespace strip included). -/
theorem C9_clean_text_amended (s : List Char) :
    (∀ c ∈ clean_text s, c.toNat ≤ 31 ∨ c.toNat = 127 →
        c = '\t' ∨ c = '\n' ∨ c = '\r') ∧
    isSubL ['\n', '\n', '\n'] (collapseNL s) = false ∧
    (∀ l ∈ splitOnChar '\n' (clean_text s), pyRStrip l = l) ∧
    clean_text "a\n\n\n\n\nb".toList = "a\n\nb".toList := by
  refine ⟨?_, collapseNL_no_triple s 0, split_rstripped _ (clean_text_noTrail s), by decide⟩
  intro c hc hctrl
  rcases mem_clean_text hc with rfl | hf
  · exact Or.inr (Or.inl rfl)
  · rw [isRemovedCtrl] at hf
    simp only [Bool.or_eq_false_iff, Bool.and_eq_false_iff, decide_eq_false_iff_not] at hf
    have h9 : c.toNat = 9 ∨ c.toNat = 10 ∨ c.toNat = 13 := by
      rcases hf with ⟨⟨⟨⟨h1, h2⟩, h3⟩, h4⟩, h5⟩
      rcases hctrl with hc1 | hc1
      · rcases h4 with h4 | h4 <;> omega
      · omega
    rcases h9 with h | h | h
    · exact Or.inl (char_eq_of_toNat (by rw [h]; rfl))
    · exact Or.inr (Or.inl (char_eq_of_toNat (by rw [h]; rfl)))
    · exact Or.inr (Or.inr (char_eq_of_toNat (by rw [h]; rfl)))

/-- Witness for C9 (amended): the concrete newline-collapse example. -/
theorem C9_clean_text_amended_witness :
    clean_text "a\n\n\n\n\nb".toList = "a\n\nb".toList :=
  (C9_clean_text_amended []).2.2.2

/-! ## PDF fallback-chain theorems (C7) -/

/-- The `document_processor._is_garbled` heuristic: text of 50+ characters
is garbled when its first 500 characters contain a `(cid:` glyph artifact,
or when more than 15% of them are Latin characters with diacritics while
fewer are Cyrillic (the float threshold `0.15` is idealised over `ℚ`). -/
def is_garbled (text : List Char) : Bool :=
  if text = [] || text.length < 50 then false
  else
    if isSubL "(cid:".toList (text.take 500) then true
    else
      if ((((text.take 500).filter
              (fun c => 0xC0 ≤ c.toNat ∧ c.toNat ≤ 0xFF)).length : ℚ) >
            ((text.take 500).length : ℚ) * (15 / 100) ∧
          ((text.take 500).filter
              (fun c => 0x400 ≤ c.toNat ∧ c.toNat ≤ 0x4FF)).length <
            ((text.take 500).filter
              (fun c => 0xC0 ≤ c.toNat ∧ c.toNat ≤ 0xFF)).length) then true
      else false

/-- A 56-character pdf-extraction output full of `(cid:N)` artifacts —
garbled under `_is_garbled`'s `(cid:` test. -/
def cidText (d : Char) : List Char :=
  (List.replicate 8 ('(' :: 'c' :: 'i' :: 'd' :: ':' :: d :: ')' :: [])).flatten

/-- C7 counterexample: PyMuPDF, pypdf and pdfplumber produce garbled
`(cid:N)` text and pdfminer produces empty text, so every backend's output
is garbled or empty.  The last non-empty result produced by any backend is
pdfplumber's, but the code returns pypdf's — not the last non-empty result
as claimed. -/
theorem C7_extract_pdf_counterexample :
    extract_pdf is_garbled (.ok (cidText '1')) (.ok (cidText '2'))
        (.ok (cidText '3')) (.ok []) = .ok (cidText '2') ∧
    ([cidText '1', cidText '2', cidText '3', ([] : List Char)].filter
        (fun t => !t.isEmpty)).getLast? = some (cidText '3') ∧
    cidText '2' ≠ cidText '3' ∧
    ([cidText '1', cidText '2', cidText '3', ([] : List Char)].all
        (fun t => t.isEmpty || is_garbled t)) = true :=
  ⟨rfl, by decide, by decide, by decide⟩

/-- C7 (amended): when every backend produces garbled or empty text (and
pypdf itself returns rather than raises), `_extract_pdf` returns the
**pypdf** backend's text — even when it is empty or another backend later
produced non-empty text — and never raises an extraction failure itself.
(A non-garbled pypdf result, including the empty string, is even returned
before pdfplumber/pdfminer are tried.) -/
theorem C7_extract_pdf_amended (garbled : List Char → Bool)
    (m pl mi : Except Unit (List Char)) (t2 : List Char)
    (hm : ∀ t, m = .ok t → t = [] ∨ garbled t = true)
    (hpl : ∀ t, pl = .ok t → t = [] ∨ garbled t = true)
    (hmi : ∀ t, mi = .ok t → t = [] ∨ garbled t = true) :
    extract_pdf garbled m (.ok t2) pl mi = .ok t2 := by
  have htail : extract_pdf_tail garbled (.ok t2) pl mi = .ok t2 := by
    rw [extract_pdf_tail.eq_def]
    dsimp only
    by_cases hg : garbled t2 = false
    · rw [if_pos hg]
    · rw [if_neg hg]
      cases pl with
      | error e =>
        dsimp only
        cases mi with
        | error e2 => rfl
        | ok t4 =>
          rcases hmi t4 rfl with rfl | hg4
          · simp
          · simp [hg4]
      | ok t3 =>
        rcases hpl t3 rfl with rfl | hg3
        · dsimp only
          cases mi with
          | error e2 => simp
          | ok t4 =>
            rcases hmi t4 rfl with rfl | hg4
            · simp
            · simp [hg4]
        · dsimp only
          cases mi with
          | error e2 => simp [hg3]
          | ok t4 =>
            rcases hmi t4 rfl with rfl | hg4
            · simp [hg3]
            · simp [hg3, hg4]
  rw [extract_pdf.eq_def]
  cases m with
  | error e => exact htail
  | ok t1 =>
    dsimp only
    rcases hm t1 rfl with rfl | hg1
    · simpa using htail
    · rw [if_neg (fun hc => by rw [hg1] at hc; exact absurd hc.2 (by simp))]
      exact htail

/-- Witness for C7 (amended): with every backend raising except pypdf,
whose output is garbled, the pypdf text is returned. -/
theorem C7_extract_pdf_amended_witness :
    extract_pdf is_garbled (.error ()) (.ok (cidText '2')) (.error ())
      (.error ()) = .ok (cidText '2') :=
  C7_extract_pdf_amended is_garbled (.error ()) (.error ()) (.error ())
    (cidText '2')
    (by intro t h; cases h) (by intro t h; cases h) (by intro t h; cases h)

/-! ## Search lemmas (C3, C4, C10) -/

lemma roundHalfEven_ge (y : ℚ) : y - 1 / 2 ≤ (roundHalfEven y : ℚ) := by
  rw [roundHalfEven]
  have h1 : (⌊y⌋ : ℚ) ≤ y := Int.floor_le y
  have h2 : y < ⌊y⌋ + 1 := Int.lt_floor_add_one y
  split_ifs <;> push_cast <;> linarith

/-- Rounding to four decimal places loses at most `1/20000`. -/
lemma pyRound4_ge (x : ℚ) : x - 1 / 20000 ≤ pyRound4 x := by
  rw [pyRound4]
  have := roundHalfEven_ge (x * 10000)
  linarith

lemma mem_insertHit {h x : Hit} : ∀ {l : List Hit}, x ∈ insertHit h l ↔ x = h ∨ x ∈ l := by
  intro l
  induction l with
  | nil => simp [insertHit]
  | cons a t ih =>
    rw [insertHit]
    split_ifs
    · simp [List.mem_cons]
    · simp only [List.mem_cons, ih]
      tauto

lemma mem_sortHits {x : Hit} : ∀ {l : List Hit}, x ∈ sortHits l ↔ x ∈ l := by
  intro l
  induction l with
  | nil => simp [sortHits]
  | cons a t ih =>
    rw [sortHits, mem_insertHit]
    simp [ih]

lemma pairwise_insertHit (h : Hit) :
    ∀ l : List Hit, List.Pairwise (fun a b => b.score ≤ a.score) l →
      List.Pairwise (fun a b => b.score ≤ a.score) (insertHit h l) := by
  intro l
  induction l with
  | nil => intro _; simp [insertHit]
  | cons a t ih =>
    intro hl
    rw [List.pairwise_cons] at hl
    rw [insertHit]
    split_ifs with hsc
    · rw [List.pairwise_cons]
      refine ⟨?_, List.pairwise_cons.mpr hl⟩
      intro y hy
      rcases List.mem_cons.mp hy with rfl | hy2
      · exact le_of_lt hsc
      · exact le_trans (hl.1 y hy2) (le_of_lt hsc)
    · rw [List.pairwise_cons]
      refine ⟨?_, ih hl.2⟩
      intro y hy
      rcases mem_insertHit.mp hy with rfl | hy2
      · exact le_of_not_lt hsc
      · exact hl.1 y hy2

lemma sortHits_sorted : ∀ l : List Hit,
    List.Pairwise (fun a b => b.score ≤ a.score) (sortHits l) := by
  intro l
  induction l with
  | nil => simp [sortHits]
  | cons a t ih => exact pairwise_insertHit a _ ih

lemma pyTakeInt_subset {k : Int} {l : List Hit} : ∀ x ∈ pyTakeInt k l, x ∈ l := by
  rw [pyTakeInt]
  split_ifs <;> exact fun x hx => List.take_subset _ _ hx

lemma pyTakeInt_pairwise {R : Hit → Hit → Prop} {k : Int} {l : List Hit}
    (h : List.Pairwise R l) : List.Pairwise R (pyTakeInt k l) := by
  rw [pyTakeInt]
  split_ifs <;> exact List.Pairwise.sublist (List.take_sublist _ _) h

lemma pyTakeInt_length_le {k : Int} (hk : 0 ≤ k) (l : List Hit) :
    (pyTakeInt k l).length ≤ k.toNat := by
  rw [pyTakeInt, if_pos hk]
  simp [List.length_take]

lemma carScope_subset {kws : List (List Char)} {cands : List (List Char × Hit)} :
    ∀ p ∈ carScope kws cands, p ∈ cands := by
  intro p hp
  rw [carScope] at hp
  split_ifs at hp with h1
  · exact hp
  · dsimp only at hp
    split_ifs at hp with h2
    · exact hp
    · exact (List.mem_filter.mp hp).1

/-- Invariant of the candidate dictionary: every stored hit's score is the
4-decimal rounding of an exact relevance that passed the threshold. -/
def HitOK (minRel : ℚ) (h : Hit) : Prop := ∃ s, minRel ≤ s ∧ h.score = pyRound4 s

lemma considerRow_inv {minRel : ℚ} {cands : List (List Char × Hit)} {row : QueryRow}
    (h : ∀ p ∈ cands, HitOK minRel p.2) :
    ∀ p ∈ considerRow minRel cands row, HitOK minRel p.2 := by
  intro p hp
  rw [considerRow] at hp
  split_ifs at hp with h1 h2
  · exact h p hp
  · exact h p hp
  · cases hlk : lookupA cands row.id with
    | none =>
      rw [hlk] at hp
      dsimp only at hp
      rcases List.mem_append.mp hp with h' | h'
      · exact h p h'
      · rw [List.mem_singleton] at h'
        subst h'
        exact ⟨1 - row.dist / 2, le_of_not_lt h1, rfl⟩
    | some old =>
      rw [hlk] at hp
      dsimp only at hp
      split_ifs at hp with h3
      · rw [replaceA] at hp
        obtain ⟨q, hq, hpq⟩ := List.mem_map.mp hp
        by_cases hqid : q.1 = row.id
        · rw [if_pos hqid] at hpq
          subst hpq
          exact ⟨1 - row.dist / 2, le_of_not_lt h1, rfl⟩
        · rw [if_neg hqid] at hpq
          subst hpq
          exact h q hq
      · exact h p hp

lemma foldl_considerRow_inv {minRel : ℚ} :
    ∀ (rows : List QueryRow) (acc : List (List Char × Hit)),
      (∀ p ∈ acc, HitOK minRel p.2) →
      ∀ p ∈ rows.foldl (considerRow minRel) acc, HitOK minRel p.2 := by
  intro rows
  induction rows with
  | nil => exact fun acc h => h
  | cons r rows' ih =>
    intro acc h
    rw [List.foldl_cons]
    exact ih _ (considerRow_inv h)

lemma collectCands_inv {minRel : ℚ} (rs : List (List QueryRow)) :
    ∀ p ∈ collectCands minRel rs, HitOK minRel p.2 := by
  rw [collectCands]
  have main : ∀ (rss : List (List QueryRow)) (acc : List (List Char × Hit)),
      (∀ p ∈ acc, HitOK minRel p.2) →
      ∀ p ∈ rss.foldl (fun acc rs => rs.foldl (considerRow minRel) acc) acc,
        HitOK minRel p.2 := by
    intro rss
    induction rss with
    | nil => exact fun acc h => h
    | cons rows rss' ih =>
      intro acc h
      rw [List.foldl_cons]
      exact ih _ (foldl_considerRow_inv rows acc h)
  exact main rs [] (by simp)

/-- Example metadata for concrete search evaluations. -/
def exMeta : ChunkMeta :=
  { document_id := "d".toList, filename := "f".toList, chunk_index := 0,
    total_chunks := 1, added_at := 0, pages := [] }

/-- A 120-character chunk text that passes the quality filter. -/
def exDocA : List Char := List.replicate 120 'a'

/-- Evaluation of `searchModel` on a single surviving candidate. -/
lemma searchModel_single (tk : Option Int) (mr? : Option ℚ) (row : QueryRow)
    (hsc : ¬(1 - row.dist / 2 < pyOrRat mr? RAG_MIN_RELEVANCE))
    (hlq : is_low_quality_chunk row.doc = false)
    (htk : 1 ≤ pyOrInt tk RAG_TOP_K) :
    searchModel [[row]] tk mr? [] = [mkCand row] := by
  rw [searchModel]
  rw [collectCands]
  dsimp only [List.foldl]
  rw [considerRow, if_neg hsc, if_neg (by rw [hlq]; simp)]
  rw [show lookupA [] row.id = none from rfl]
  rw [carScope, if_pos rfl]
  rw [List.nil_append]
  rw [show List.map Prod.snd [(row.id, mkCand row)] = [mkCand row] from rfl]
  rw [show sortHits [mkCand row] = [mkCand row] from rfl]
  rw [pyTakeInt, if_pos (by omega)]
  apply List.take_of_length_le
  simp
  omega

/-- C3 (amended): every returned hit passed the threshold filter with its
exact relevance `1 - distance/2 ≥ min_relevance`; the stored score is that
relevance rounded to 4 decimal places, hence at least
`min_relevance - 1/20000` (the claim as stated ignores the rounding of the
stored score).  Stated for a positive requested threshold, which the `or`
coalescing then passes through unchanged. -/
theorem C3_search_threshold_amended (rs : List (List QueryRow)) (top_k : Option Int)
    (mr : ℚ) (kws : List (List Char)) (hmr : 0 < mr) :
    ∀ hit ∈ searchModel rs top_k (some mr) kws,
      mr - 1 / 20000 ≤ hit.score ∧ ∃ s, mr ≤ s ∧ hit.score = pyRound4 s := by
  intro hit hhit
  rw [searchModel] at hhit
  have ho : pyOrRat (some mr) RAG_MIN_RELEVANCE = mr := by
    rw [pyOrRat, if_neg (ne_of_gt hmr)]
  rw [ho] at hhit
  have h1 := pyTakeInt_subset hit hhit
  have h2 := mem_sortHits.mp h1
  obtain ⟨p, hp, hps⟩ := List.mem_map.mp h2
  obtain ⟨s, hs, he⟩ := collectCands_inv rs p (carScope_subset p hp)
  rw [hps] at he
  refine ⟨?_, s, hs, he⟩
  rw [he]
  calc mr - 1 / 20000 ≤ s - 1 / 20000 := by linarith
    _ ≤ pyRound4 s := pyRound4_ge s

/-- Candidate row for concrete search evaluations: distance 1, relevance
`1/2`. -/
def exRow : QueryRow := { id := "c0".toList, doc := exDocA, meta := exMeta, dist := 1 }

set_option maxRecDepth 100000 in
/-- Witness for C3 (amended) at a single candidate with relevance 1/2 and
threshold 1/2. -/
theorem C3_search_threshold_amended_witness :
    (0 : ℚ) < 1 / 2 ∧ 1 / 2 - 1 / 20000 ≤ (mkCand exRow).score :=
  have heval : searchModel [[exRow]] (some 5) (some (1 / 2)) [] = [mkCand exRow] :=
    searchModel_single (some 5) (some (1 / 2)) exRow
      (by norm_num [exRow, pyOrRat, RAG_MIN_RELEVANCE]) (by decide)
      (by norm_num [pyOrInt, RAG_TOP_K])
  ⟨by norm_num,
    ((C3_search_threshold_amended [[exRow]] (some 5) (1 / 2) [] (by norm_num))
      (mkCand exRow) (by rw [heval]; exact List.mem_singleton_self _)).1⟩

/-- Candidate row whose exact relevance `0.54321` has five decimal places. -/
def exRowR : QueryRow :=
  { id := "c0".toList, doc := exDocA, meta := exMeta, dist := 91358 / 100000 }

lemma pyRound4_exRowR : pyRound4 (1 - (91358 / 100000 : ℚ) / 2) = 679 / 1250 := by
  have h1 : ((1 : ℚ) - 91358 / 100000 / 2) * 10000 = 54321 / 10 := by norm_num
  rw [pyRound4, roundHalfEven, h1]
  have h2 : ⌊(54321 / 10 : ℚ)⌋ = 5432 := by norm_num [Int.floor_eq_iff]
  rw [h2]
  rw [if_pos (by push_cast; norm_num)]
  norm_num

set_option maxRecDepth 100000 in
/-- C3 counterexample: with requested `min_relevance = 0.54321 ∈ [0,1]` and
a hit of exact relevance `0.54321`, the hit passes the filter but its
stored score is `round(0.54321, 4) = 0.5432 < 0.54321` — the returned hit's
score is below the requested threshold. -/
theorem C3_search_threshold_counterexample :
    searchModel [[exRowR]] (some 5) (some (54321 / 100000)) [] = [mkCand exRowR] ∧
    (mkCand exRowR).score < 54321 / 100000 := by
  constructor
  · exact searchModel_single _ _ _
      (by norm_num [exRowR, pyOrRat, RAG_MIN_RELEVANCE]) (by decide)
      (by norm_num [pyOrInt, RAG_TOP_K])
  · show pyRound4 (1 - exRowR.dist / 2) < _
    rw [show exRowR.dist = 91358 / 100000 from rfl, pyRound4_exRowR]
    norm_num

/-- C4 (amended): for every explicitly requested `top_k ≥ 1` (a truthy
value, passed through unchanged by the `or` coalescing), the returned list
has at most `top_k` hits and is sorted by score descending.  (For
`top_k = 0` the default is silently substituted instead — see the
counterexample.) -/
theorem C4_search_topk_amended (rs : List (List QueryRow)) (k : Int)
    (mr? : Option ℚ) (kws : List (List Char)) (hk : 1 ≤ k) :
    (searchModel rs (some k) mr? kws).length ≤ k.toNat ∧
    List.Pairwise (fun a b : Hit => b.score ≤ a.score)
      (searchModel rs (some k) mr? kws) := by
  rw [searchModel]
  have ho : pyOrInt (some k) RAG_TOP_K = k := by rw [pyOrInt, if_neg (by omega)]
  rw [ho]
  exact ⟨pyTakeInt_length_le (by omega) _, pyTakeInt_pairwise (sortHits_sorted _)⟩

/-- Witness for C4 (amended) at `top_k = 3`. -/
theorem C4_search_topk_amended_witness :
    (1 : Int) ≤ 3 ∧
    (searchModel [[exRow]] (some 3) (some (1 / 2)) []).length ≤ (3 : Int).toNat :=
  ⟨by norm_num, (C4_search_topk_amended [[exRow]] 3 (some (1 / 2)) [] (by norm_num)).1⟩

set_option maxRecDepth 100000 in
/-- C4 counterexample: a call explicitly requesting `top_k = 0` returns one
hit (the `or` coalescing substitutes the default 5), violating "at most
`top_k` hits" as claimed for every call. -/
theorem C4_search_topk_counterexample :
    ¬ ((searchModel [[exRow]] (some 0) (some (1 / 2)) []).length ≤ (0 : Int).toNat) := by
  have heval : searchModel [[exRow]] (some 0) (some (1 / 2)) [] = [mkCand exRow] :=
    searchModel_single (some 0) (some (1 / 2)) exRow
      (by norm_num [exRow, pyOrRat, RAG_MIN_RELEVANCE]) (by decide)
      (by norm_num [pyOrInt, RAG_TOP_K])
  rw [heval]
  decide

/-- Candidate row with relevance `0.1`, below the configured default
threshold `0.3` but above zero. -/
def exRowLow : QueryRow :=
  { id := "c0".toList, doc := exDocA, meta := exMeta, dist := 9 / 5 }

/-- C10: passing `top_k = 0` or `min_relevance = 0.0` silently substitutes
the configured defaults (`RAG_TOP_K = 5`, `RAG_MIN_RELEVANCE = 0.3`) via
Python's truthiness coalescing `or`; consequently a search requesting a
zero relevance threshold behaves as one with the non-zero default — a
candidate of relevance `0.1 ≥ 0` is filtered out rather than returned. -/
theorem C10_zero_args_coalesced :
    (∀ (rs : List (List QueryRow)) (kws : List (List Char)),
       searchModel rs (some 0) (some 0) kws = searchModel rs none none kws) ∧
    pyOrInt (some 0) RAG_TOP_K = RAG_TOP_K ∧
    pyOrRat (some 0) RAG_MIN_RELEVANCE = RAG_MIN_RELEVANCE ∧
    RAG_MIN_RELEVANCE ≠ 0 ∧
    searchModel [[exRowLow]] (some 5) (some 0) [] = [] := by
  refine ⟨fun rs kws => rfl, rfl, rfl, by norm_num [RAG_MIN_RELEVANCE], ?_⟩
  rw [searchModel, collectCands]
  dsimp only [List.foldl]
  rw [considerRow, if_pos (by norm_num [exRowLow, pyOrRat, RAG_MIN_RELEVANCE])]
  rw [carScope, if_pos rfl]
  rfl

/-! ## Store lemmas (C6) -/

/-- The chunk ids present in the store. -/
def keysOf (s : Store) : List (List Char) := s.map Prod.fst

lemma keysOf_cons (x : List Char × Entry) (l : Store) :
    keysOf (x :: l) = x.1 :: keysOf l := rfl

lemma upsertBatch_cons (s : Store) (r : List Char × Entry)
    (rest : List (List Char × Entry)) :
    upsertBatch s (r :: rest) = upsertBatch (upsertOne s r.1 r.2) rest := rfl

lemma any_key_iff (s : Store) (id : List Char) :
    s.any (fun p => p.1 = id) = true ↔ ∃ q ∈ s, q.1 = id := by
  rw [List.any_eq_true]
  constructor
  · rintro ⟨q, hq, hd⟩
    exact ⟨q, hq, by simpa using hd⟩
  · rintro ⟨q, hq, hd⟩
    exact ⟨q, hq, by simpa using hd⟩

lemma upsertOne_present {s : Store} {id : List Char} (e : Entry)
    (h : ∃ q ∈ s, q.1 = id) :
    upsertOne s id e = s.map fun p => if p.1 = id then (id, e) else p := by
  rw [upsertOne, if_pos ((any_key_iff s id).mpr h)]

lemma upsertOne_absent {s : Store} {id : List Char} (e : Entry)
    (h : ¬ ∃ q ∈ s, q.1 = id) :
    upsertOne s id e = s ++ [(id, e)] := by
  rw [upsertOne, if_neg (fun hc => h ((any_key_iff s id).mp hc))]

lemma keysOf_map_replace (s : Store) (id : List Char) (e : Entry) :
    keysOf (s.map fun p => if p.1 = id then (id, e) else p) = keysOf s := by
  induction s with
  | nil => rfl
  | cons p t ih =>
    rw [List.map_cons, keysOf_cons, keysOf_cons, ih]
    congr 1
    split_ifs with hp
    · exact hp.symm
    · rfl

lemma nodup_key_unique {s : Store} (hnd : (keysOf s).Nodup)
    {q q' : List Char × Entry} (hq : q ∈ s) (hq' : q' ∈ s) (hk : q.1 = q'.1) :
    q = q' := by
  induction s with
  | nil => cases hq
  | cons p t ih =>
    rw [keysOf_cons, List.nodup_cons] at hnd
    rcases List.mem_cons.mp hq with rfl | hq2 <;>
      rcases List.mem_cons.mp hq' with h' | hq2'
    · exact h'.symm
    · exact absurd (hk ▸ List.mem_map_of_mem Prod.fst hq2') hnd.1
    · subst h'
      exact absurd (hk ▸ List.mem_map_of_mem Prod.fst hq2) hnd.1
    · exact ih hnd.2 hq2 hq2'

lemma count_map_replace {s : Store} {id : List Char} {e : Entry} (d : List Char)
    (hsame : ∀ q ∈ s, q.1 = id → q.2.meta.document_id = e.meta.document_id) :
    docChunkCount (s.map fun p => if p.1 = id then (id, e) else p) d =
      docChunkCount s d := by
  induction s with
  | nil => rfl
  | cons p t ih =>
    rw [List.map_cons]
    have iht := ih (fun q hq hk => hsame q (List.mem_cons_of_mem p hq) hk)
    simp only [docChunkCount, List.filter_cons] at iht ⊢
    by_cases hp : p.1 = id
    · rw [if_pos hp]
      have hdoc : e.meta.document_id = p.2.meta.document_id :=
        (hsame p (List.mem_cons_self _ _) hp).symm
      by_cases hmatch : p.2.meta.document_id = d
      · rw [if_pos (by simp [hdoc.trans hmatch]), if_pos (by simp [hmatch])]
        rw [List.length_cons, List.length_cons, iht]
      · rw [if_neg (by simp [hdoc, hmatch]), if_neg (by simp [hmatch])]
        exact iht
    · rw [if_neg hp]
      by_cases hmatch : p.2.meta.document_id = d
      · rw [if_pos (by simp [hmatch]), if_pos (by simp [hmatch])]
        rw [List.length_cons, List.length_cons, iht]
      · rw [if_neg (by simp [hmatch]), if_neg (by simp [hmatch])]
        exact iht

lemma nodup_keysOf_upsertOne {s : Store} {id : List Char} {e : Entry}
    (h : (keysOf s).Nodup) : (keysOf (upsertOne s id e)).Nodup := by
  by_cases hp : ∃ q ∈ s, q.1 = id
  · rw [upsertOne_present e hp, keysOf_map_replace]
    exact h
  · rw [upsertOne_absent e hp]
    have hk : keysOf (s ++ [(id, e)]) = keysOf s ++ [id] := by simp [keysOf]
    rw [hk, List.nodup_append]
    refine ⟨h, by simp, ?_⟩
    intro a ha hmem
    apply hp
    obtain ⟨q, hq, hqa⟩ := List.mem_map.mp ha
    have : a = id := by simpa using hmem
    exact ⟨q, hq, by rw [hqa, this]⟩

lemma nodup_keysOf_upsertBatch :
    ∀ (recs : List (List Char × Entry)) (s : Store),
      (keysOf s).Nodup → (keysOf (upsertBatch s recs)).Nodup := by
  intro recs
  induction recs with
  | nil => exact fun s h => h
  | cons r rest ih =>
    intro s h
    rw [upsertBatch_cons]
    exact ih _ (nodup_keysOf_upsertOne h)

lemma presence_upsertOne {s : Store} {k d : List Char} {r : List Char × Entry}
    (hpres : ∃ q ∈ s, q.1 = k ∧ q.2.meta.document_id = d)
    (hr : r.2.meta.document_id = d) :
    ∃ q ∈ upsertOne s r.1 r.2, q.1 = k ∧ q.2.meta.document_id = d := by
  obtain ⟨q, hq, hqk, hqd⟩ := hpres
  by_cases hp : ∃ q0 ∈ s, q0.1 = r.1
  · rw [upsertOne_present _ hp]
    by_cases hqr : q.1 = r.1
    · exact ⟨(r.1, r.2), List.mem_map.mpr ⟨q, hq, by rw [if_pos hqr]⟩,
        hqr ▸ hqk, hr⟩
    · exact ⟨q, List.mem_map.mpr ⟨q, hq, by rw [if_neg hqr]⟩, hqk, hqd⟩
  · rw [upsertOne_absent _ hp]
    exact ⟨q, List.mem_append_left _ hq, hqk, hqd⟩

lemma presence_new {s : Store} {r : List Char × Entry} {d : List Char}
    (hr : r.2.meta.document_id = d) :
    ∃ q ∈ upsertOne s r.1 r.2, q.1 = r.1 ∧ q.2.meta.document_id = d := by
  by_cases hp : ∃ q0 ∈ s, q0.1 = r.1
  · rw [upsertOne_present _ hp]
    obtain ⟨q0, hq0, hq0k⟩ := hp
    exact ⟨(r.1, r.2), List.mem_map.mpr ⟨q0, hq0, by rw [if_pos hq0k]⟩, rfl, hr⟩
  · rw [upsertOne_absent _ hp]
    exact ⟨(r.1, r.2), List.mem_append_right _ (List.mem_singleton_self _), rfl, hr⟩

lemma presence_upsertBatch {d : List Char} :
    ∀ (recs : List (List Char × Entry)) (s : Store) (k : List Char),
      (∀ r ∈ recs, r.2.meta.document_id = d) →
      (∃ q ∈ s, q.1 = k ∧ q.2.meta.document_id = d) →
      ∃ q ∈ upsertBatch s recs, q.1 = k ∧ q.2.meta.document_id = d := by
  intro recs
  induction recs with
  | nil => exact fun s k _ h => h
  | cons r rest ih =>
    intro s k hall hpres
    rw [upsertBatch_cons]
    exact ih _ k (fun x hx => hall x (List.mem_cons_of_mem r hx))
      (presence_upsertOne hpres (hall r (List.mem_cons_self _ _)))

/-- After a whole-batch upsert with a common document id, every record's
key is present with that document id. -/
lemma mem_key_upsertBatch {d : List Char} :
    ∀ (recs : List (List Char × Entry)) (s : Store),
      (∀ r ∈ recs, r.2.meta.document_id = d) →
      ∀ r ∈ recs, ∃ q ∈ upsertBatch s recs, q.1 = r.1 ∧ q.2.meta.document_id = d := by
  intro recs
  induction recs with
  | nil => intro s _ r hr; cases hr
  | cons r0 rest ih =>
    intro s hall r hr
    rw [upsertBatch_cons]
    rcases List.mem_cons.mp hr with rfl | hr2
    · exact presence_upsertBatch rest _ r.1
        (fun x hx => hall x (List.mem_cons_of_mem r hx))
        (presence_new (hall r (List.mem_cons_self _ _)))
    · exact ih _ (fun x hx => hall x (List.mem_cons_of_mem r0 hx)) r hr2

/-- When every record's key is already present with the same document id,
a batch upsert only replaces entries: the per-document chunk count and the
key list are unchanged. -/
lemma count_keys_upsertBatch (d : List Char) :
    ∀ (recs : List (List Char × Entry)) (s : Store),
      (keysOf s).Nodup →
      (∀ r ∈ recs, ∃ q ∈ s, q.1 = r.1 ∧
        q.2.meta.document_id = r.2.meta.document_id) →
      docChunkCount (upsertBatch s recs) d = docChunkCount s d ∧
        keysOf (upsertBatch s recs) = keysOf s := by
  intro recs
  induction recs with
  | nil => exact fun s _ _ => ⟨rfl, rfl⟩
  | cons r rest ih =>
    intro s hnd hpres
    obtain ⟨q, hq, hqk, hqd⟩ := hpres r (List.mem_cons_self _ _)
    have hp : ∃ q0 ∈ s, q0.1 = r.1 := ⟨q, hq, hqk⟩
    have hsame : ∀ q' ∈ s, q'.1 = r.1 →
        q'.2.meta.document_id = r.2.meta.document_id := by
      intro q' hq' hk'
      have hqq : q' = q := nodup_key_unique hnd hq' hq (hk'.trans hqk.symm)
      rw [hqq, hqd]
    rw [upsertBatch_cons, upsertOne_present r.2 hp]
    have hkeys' : keysOf (s.map fun p => if p.1 = r.1 then (r.1, r.2) else p) =
        keysOf s := keysOf_map_replace s r.1 r.2
    have hnd' : (keysOf (s.map fun p => if p.1 = r.1 then (r.1, r.2) else p)).Nodup := by
      rw [hkeys']
      exact hnd
    have hcount' : docChunkCount (s.map fun p => if p.1 = r.1 then (r.1, r.2) else p) d =
        docChunkCount s d := count_map_replace d hsame
    have hpres' : ∀ r' ∈ rest,
        ∃ q' ∈ (s.map fun p => if p.1 = r.1 then (r.1, r.2) else p),
          q'.1 = r'.1 ∧ q'.2.meta.document_id = r'.2.meta.document_id := by
      intro r' hr'
      obtain ⟨q', hq', hk', hd'⟩ := hpres r' (List.mem_cons_of_mem r hr')
      by_cases hq'r : q'.1 = r.1
      · have hqq : q' = q := nodup_key_unique hnd hq' hq (hq'r.trans hqk.symm)
        refine ⟨(r.1, r.2), List.mem_map.mpr ⟨q', hq', by rw [if_pos hq'r]⟩,
          hq'r.symm.trans hk', ?_⟩
        calc r.2.meta.document_id = q.2.meta.document_id := hqd.symm
          _ = q'.2.meta.document_id := by rw [hqq]
          _ = r'.2.meta.document_id := hd'
      · exact ⟨q', List.mem_map.mpr ⟨q', hq', by rw [if_neg hq'r]⟩, hk', hd'⟩
    obtain ⟨hc, hk⟩ := ih _ hnd' hpres'
    exact ⟨hc.trans hcount', hk.trans hkeys'⟩

lemma ingestRecords_doc {doc_id f : List Char} {now : Int}
    {chunks : List (List Char)} :
    ∀ r ∈ ingestRecords doc_id f now chunks, r.2.meta.document_id = doc_id := by
  intro r hr
  obtain ⟨i, _, rfl⟩ := List.mem_map.mp hr
  rfl

/-- The record batches for the same content differ only in filename and
timestamp: keys and document ids match pairwise. -/
lemma ingestRecords_match {doc_id f2 : List Char} {t2 : Int}
    {chunks : List (List Char)} (f1 : List Char) (t1 : Int) :
    ∀ r ∈ ingestRecords doc_id f2 t2 chunks,
      ∃ r1 ∈ ingestRecords doc_id f1 t1 chunks,
        r1.1 = r.1 ∧ r1.2.meta.document_id = r.2.meta.document_id := by
  intro r hr
  obtain ⟨i, hi, rfl⟩ := List.mem_map.mp hr
  exact ⟨_, List.mem_map.mpr ⟨i, hi, rfl⟩, rfl, rfl⟩

/-- The chunk ids `{doc_id}_{i}` of one document are pairwise distinct. -/
lemma ingest_ids_nodup (doc_id : List Char) (n : Nat) :
    ((List.range n).map fun i => doc_id ++ '_' :: natRepr i).Nodup := by
  refine List.Nodup.map ?_ (List.nodup_range n)
  intro i j h
  have h1 : ('_' :: natRepr i : List Char) = '_' :: natRepr j :=
    List.append_cancel_left h
  have h2 : natRepr i = natRepr j := by injection h1
  exact natRepr_injective h2

/-- C6: ingesting byte-identical content twice — under possibly different
filenames and at different times — produces the same `document_id` (the
truncated hash of the cleaned text) and the same chunk ids
`{document_id}_{i}`; the second ingestion only overwrites the first one's
records, leaving the store's key set and the document's chunk count
unchanged; and the chunk ids of a document are pairwise distinct. -/
theorem C6_ingest_idempotent (hashHex : List Char → List Char)
    (encode : List Char → List Nat) (decode : List Nat → List Char)
    (cs ov : Nat) (store : Store) (rawText f1 f2 : List Char) (t1 t2 : Int)
    (hnd : (keysOf store).Nodup)
    (s1 s2 : Store) (res1 res2 : IngestResult)
    (h1 : add_document hashHex encode decode cs ov store rawText f1 t1 =
      .ok (s1, res1))
    (h2 : add_document hashHex encode decode cs ov s1 rawText f2 t2 =
      .ok (s2, res2)) :
    res2.document_id = res1.document_id ∧
    res2.chunk_count = res1.chunk_count ∧
    keysOf s2 = keysOf s1 ∧
    docChunkCount s2 res1.document_id = docChunkCount s1 res1.document_id ∧
    ((List.range res1.chunk_count).map
      (fun i => res1.document_id ++ '_' :: natRepr i)).Nodup := by
  rw [add_document] at h1 h2
  by_cases hte : clean_text rawText = []
  · rw [if_pos hte] at h1
    exact absurd h1 (by simp)
  rw [if_neg hte] at h1 h2
  by_cases hch : chunk_text encode decode (clean_text rawText) cs ov = []
  · rw [if_pos hch] at h1
    exact absurd h1 (by simp)
  rw [if_neg hch] at h1 h2
  set text := clean_text rawText with htext
  set doc_id := (hashHex text).take 16 with hdocid
  set chunks := chunk_text encode decode text cs ov with hchunks
  injection h1 with h1'
  injection h2 with h2'
  have hs1 : upsertBatch store (ingestRecords doc_id f1 t1 chunks) = s1 :=
    congrArg Prod.fst h1'
  have hres1 : IngestResult.mk doc_id f1 chunks.length (encode text).length = res1 :=
    congrArg Prod.snd h1'
  have hs2 : upsertBatch s1 (ingestRecords doc_id f2 t2 chunks) = s2 :=
    congrArg Prod.fst h2'
  have hres2 : IngestResult.mk doc_id f2 chunks.length (encode text).length = res2 :=
    congrArg Prod.snd h2'
  have hnd1 : (keysOf s1).Nodup := by
    rw [← hs1]
    exact nodup_keysOf_upsertBatch _ store hnd
  have hpres2 : ∀ r ∈ ingestRecords doc_id f2 t2 chunks,
      ∃ q ∈ s1, q.1 = r.1 ∧ q.2.meta.document_id = r.2.meta.document_id := by
    intro r hr
    obtain ⟨r1, hr1, hk, hd⟩ := ingestRecords_match f1 t1 r hr
    obtain ⟨q, hq, hqk, hqd⟩ :=
      mem_key_upsertBatch (d := doc_id) _ store ingestRecords_doc r1 hr1
    refine ⟨q, hs1 ▸ hq, hqk.trans hk, ?_⟩
    rw [hqd]
    exact (ingestRecords_doc r hr).symm
  obtain ⟨hcount, hkeys⟩ :=
    count_keys_upsertBatch res1.document_id _ s1 hnd1 hpres2
  refine ⟨?_, ?_, ?_, ?_, ?_⟩
  · rw [← hres1, ← hres2]
  · rw [← hres1, ← hres2]
  · rw [← hs2]
    exact hkeys
  · rw [← hs2]
    exact hcount
  · rw [← hres1]
    exact ingest_ids_nodup doc_id chunks.length

/-- Concrete externals for the C6 witness: identity hash, code-point
tokenizer. -/
def exHash : List Char → List Char := fun t => t

def exEnc : List Char → List Nat := fun s => s.map Char.toNat

def exDec : List Nat → List Char := fun l => l.map fun n => Char.ofNat n

def exText : List Char := "hello world content".toList

/-- First ingestion of the witness content (filename "a", time 0). -/
def exPair1 : Store × IngestResult :=
  match add_document exHash exEnc exDec 800 100 [] exText "a".toList 0 with
  | .ok p => p
  | .error _ => ([], IngestResult.mk [] [] 0 0)

/-- Second ingestion of the identical content (filename "b", time 1). -/
def exPair2 : Store × IngestResult :=
  match add_document exHash exEnc exDec 800 100 exPair1.1 exText "b".toList 1 with
  | .ok p => p
  | .error _ => ([], IngestResult.mk [] [] 0 0)

set_option maxRecDepth 100000 in
/-- Witness for C6: re-ingesting identical content under another filename
reproduces the document id, the chunk count, the key set and the
per-document chunk count. -/
theorem C6_ingest_idempotent_witness :
    exPair2.2.document_id = exPair1.2.document_id ∧
    exPair2.2.chunk_count = exPair1.2.chunk_count ∧
    keysOf exPair2.1 = keysOf exPair1.1 ∧
    docChunkCount exPair2.1 exPair1.2.document_id =
      docChunkCount exPair1.1 exPair1.2.document_id ∧
    ((List.range exPair1.2.chunk_count).map
      (fun i => exPair1.2.document_id ++ '_' :: natRepr i)).Nodup :=
  C6_ingest_idempotent exHash exEnc exDec 800 100 [] exText "a".toList "b".toList
    0 1 List.nodup_nil exPair1.1 exPair2.1 exPair1.2 exPair2.2 rfl rfl
